import Mathlib

/-!
Verification of the reconciliation core of a package-management library.

The Python source is embedded shallowly: Python `str` becomes `List Char`
(`Str`), Python `dict` (insertion-ordered, unique keys) becomes an ordered
association list with Python-style insert/pop, Python `set` becomes a list
managed with membership-checking insertion.  Fallible operations
(`dict.pop` on a missing key raises `KeyError`) return `Option`.
-/

set_option maxHeartbeats 1000000

/-- Python strings, modelled as lists of characters. -/
abbrev Str := List Char

/-- Python `dict[str, str]`: insertion-ordered association list. -/
abbrev Dict := List (Str × Str)

/-- The single quote character, written numerically. -/
def squote : Char := Char.ofNat 39

/-- The double quote character, written numerically. -/
def dquote : Char := Char.ofNat 34

/-- Python `d[k]` / `d.get(k)`: value at the first occurrence of key `k`. -/
def alookup {β : Type} : List (Str × β) → Str → Option β
  | [], _ => none
  | (k0, v0) :: rest, k => if k0 = k then some v0 else alookup rest k

/-- Python `d[k] = v`: replace the value at the first occurrence of `k`,
or append `(k, v)` at the end when `k` is absent. -/
def dinsert : Dict → Str → Str → Dict
  | [], k, v => [(k, v)]
  | (k0, v0) :: rest, k, v =>
      if k0 = k then (k, v) :: rest else (k0, v0) :: dinsert rest k v

/-- Python `d.pop(k)`: remove the first occurrence of `k`; `none` models
the `KeyError` raised when `k` is absent. -/
def dpop : Dict → Str → Option Dict
  | [], _ => none
  | (k0, v0) :: rest, k =>
      if k0 = k then some rest else (dpop rest k).map (fun d => (k0, v0) :: d)

/-- Well-formedness of a dict model: keys are pairwise distinct (always
true of a real Python dict). -/
def DictWF (d : Dict) : Prop := (d.map Prod.fst).Nodup

/-- `isPre p s`: `p` is a prefix of `s` (executable). -/
def isPre : Str → Str → Bool
  | [], _ => true
  | _ :: _, [] => false
  | a :: as, b :: bs => a = b && isPre as bs

/-- `sep` occurs as a contiguous substring of `s` starting at index `i`. -/
def occAt (s sep : Str) (i : Nat) : Bool := isPre sep (s.drop i)

/-- `sep` occurs somewhere inside `s` (executable substring test). -/
def occursIn (s sep : Str) : Bool :=
  (List.range (s.length + 1)).any (fun i => occAt s sep i)

/-- Search downward from index `i` for the rightmost occurrence of `sep`
in `s`; embeds the search performed by Python `str.rsplit(sep, 1)`. -/
def rfindAux (s sep : Str) : Nat → Option Nat
  | 0 => if occAt s sep 0 then some 0 else none
  | i + 1 => if occAt s sep (i + 1) then some (i + 1) else rfindAux s sep i

/-- Index of the rightmost occurrence of `sep` in `s`, if any. -/
def rfindIdx (s sep : Str) : Option Nat := rfindAux s sep s.length

/-- Embeds `parse_package_version` (packaging.py lines 16-30): Python
`package.rsplit(version_join, 1)` splits at the rightmost occurrence of
the join string; with no occurrence the whole token is the name and the
version is the caller-supplied `latest` placeholder.  (Python raises on an
empty separator; theorems about this function assume `version_join ≠ []`.) -/
def parse_package_version (package : Str) (version_join : Str) (latest : Str) :
    Str × Str :=
  match rfindIdx package version_join with
  | none => (package, latest)
  | some i => (package.take i, package.drop (i + version_join.length))

/-- Characters Python `shlex.quote` leaves unquoted: ASCII word characters
and the punctuation @ % + = : , . slash dash. -/
def shlexSafe (c : Char) : Bool :=
  c.isAlphanum || c = '_' || c = '@' || c = '%' || c = '+' || c = '=' ||
    c = ':' || c = ',' || c = '.' || c = '/' || c = '-'

/-- Python `s.replace("'", "'\"'\"'")` applied characterwise. -/
def shlexEscape (s : Str) : Str :=
  s.flatMap (fun c =>
    if c = squote then [squote, dquote, squote, dquote, squote] else [c])

/-- Embeds Python `shlex.quote`: empty strings become `''`; strings of
safe characters pass through; anything else is wrapped in single quotes
with embedded single quotes escaped. -/
def shlex_quote (s : Str) : Str :=
  if s = [] then [squote, squote]
  else if s.all shlexSafe then s
  else squote :: (shlexEscape s ++ [squote])

/-- Embeds `_quote_package_spec` (packaging.py lines 33-47): renders each
`(name, version)` pair into a shell-safe token under the
`command_version_join` mode. -/
def quote_package_spec (packages : List (Str × Str)) (command_version_join : Str) :
    List Str :=
  packages.map (fun p =>
    if p.2 = [] then shlex_quote p.1
    else if command_version_join = [' '] then
      shlex_quote p.1 ++ [' '] ++ shlex_quote p.2
    else shlex_quote (p.1 ++ command_version_join ++ p.2))

/-- Python `" ".join(specs)`. -/
def joinSpace : List Str → Str
  | [] => []
  | [s] => s
  | s :: rest => s ++ [' '] ++ joinSpace rest

/-- Embeds `_issue_commands` (packaging.py lines 50-58): nothing for an
empty spec list; one rolled-up command, or one command per spec. -/
def issue_commands (command : Str) (specs : List Str) (rollup_commands : Bool) :
    List Str :=
  if specs = [] then []
  else if rollup_commands then [command ++ [' '] ++ joinSpace specs]
  else specs.map (fun spec => command ++ [' '] ++ spec)

/-! ## Single-version reconciliation (`ensure_single_packages`) -/

/-- Bucket assigned to one desired package name by the classification loop
of `ensure_single_packages` (before the present=false swap). -/
inductive Bucket
  | change
  | upgrade
  | noop
deriving DecidableEq

/-- Embeds the parsing loop of `ensure_single_packages` (lines 115-120):
builds the desired dict (last write wins per name) and also returns the
final value of the loop variable `package_version`, which leaks into the
classification loop below (the stale-variable behaviour of the source). -/
def parseLoop (packages : List Str) (spec_version_join latest : Str) :
    Dict × Str :=
  packages.foldl
    (fun acc pkg =>
      let nv := parse_package_version pkg spec_version_join latest
      (dinsert acc.1 nv.1 nv.2, nv.2))
    ([], latest)

/-- The branch taken by the classification loop (lines 126-135) for one
desired name.  Note the source compares the stale `package_version` (`pv`),
not the item's own desired version. -/
def classifyItem (current : Dict) (present upgrade_to_latest : Bool)
    (latest pv : Str) (name : Str) : Bucket :=
  match alookup current name with
  | none => Bucket.change
  | some cv =>
      if pv ≠ cv ∧ present = true then
        if pv = latest ∧ upgrade_to_latest = false then Bucket.noop
        else Bucket.upgrade
      else Bucket.noop

/-- One iteration of the classification loop, appending `(name, pv)` to
the bucket chosen by `classifyItem` (the source appends the stale
`package_version` in every branch). -/
def classifyStepSingle (current : Dict) (present upgrade_to_latest : Bool)
    (latest pv : Str)
    (acc : List (Str × Str) × List (Str × Str) × List (Str × Str))
    (item : Str × Str) :
    List (Str × Str) × List (Str × Str) × List (Str × Str) :=
  match classifyItem current present upgrade_to_latest latest pv item.1 with
  | Bucket.change => (acc.1 ++ [(item.1, pv)], acc.2.1, acc.2.2)
  | Bucket.upgrade => (acc.1, acc.2.1 ++ [(item.1, pv)], acc.2.2)
  | Bucket.noop => (acc.1, acc.2.1, acc.2.2 ++ [(item.1, pv)])

/-- Embeds the classification loop of `ensure_single_packages`
(lines 122-135): returns `(diff_packages, upgrade_packages, noop_packages)`
before the present=false swap. -/
def classifySingle (desired : Dict) (current : Dict)
    (present upgrade_to_latest : Bool) (latest pv : Str) :
    List (Str × Str) × List (Str × Str) × List (Str × Str) :=
  desired.foldl (classifyStepSingle current present upgrade_to_latest latest pv)
    ([], [], [])

/-- The bucket-`b` output of the classification loop, as a filter over the
desired dict; every emitted pair carries the stale version `pv`. -/
def bucketFilter (current : Dict) (present upgrade_to_latest : Bool)
    (latest pv : Str) (b : Bucket) (desired : Dict) : List (Str × Str) :=
  (desired.filter
      (fun it =>
        decide (classifyItem current present upgrade_to_latest latest pv it.1 = b))).map
    (fun it => (it.1, pv))

/-- Embeds the first mutation loop (lines 156-160): insert each diff pair
when `present`, else `pop` its name (`none` models a `KeyError`). -/
def applyDiffSingle (present : Bool) : Dict → List (Str × Str) → Option Dict
  | cur, [] => some cur
  | cur, p :: rest =>
      if present then applyDiffSingle present (dinsert cur p.1 p.2) rest
      else
        match dpop cur p.1 with
        | none => none
        | some cur2 => applyDiffSingle present cur2 rest

/-- Embeds the second mutation loop (lines 162-163): overwrite the version
of every upgraded package. -/
def applyUpgrades (cur : Dict) (upgrades : List (Str × Str)) : Dict :=
  upgrades.foldl (fun c p => dinsert c p.1 p.2) cur

/-- Observable outcome of one `ensure_single_packages` call: the post-swap
buckets, the emitted command strings, and the mutated current dict. -/
structure SingleResult where
  toChange : List (Str × Str)
  toUpgrade : List (Str × Str)
  noop : List (Str × Str)
  commands : List Str
  current : Dict
deriving DecidableEq

/-- Embeds `ensure_single_packages` (packaging.py lines 72-163).  An empty
package list returns immediately with no commands and no mutation; `none`
models the `KeyError` of the unguarded `current_packages.pop`. -/
def ensure_single_packages (packages : List Str) (current_packages : Dict)
    (present upgrade_to_latest : Bool)
    (install_command uninstall_command upgrade_command : Str)
    (latest spec_version_join command_version_join : Str)
    (rollup_commands : Bool) : Option SingleResult :=
  if packages = [] then
    some ⟨[], [], [], [], current_packages⟩
  else
    let parsed := parseLoop packages spec_version_join latest
    let buckets := classifySingle parsed.1 current_packages present
      upgrade_to_latest latest parsed.2
    let diffP := if present then buckets.1 else buckets.2.2
    let noopP := if present then buckets.2.2 else buckets.1
    let diff_specs := quote_package_spec diffP command_version_join
    let upgrade_specs := quote_package_spec buckets.2.1 command_version_join
    let command := if present then install_command else uninstall_command
    let commands :=
      issue_commands command diff_specs rollup_commands ++
        issue_commands upgrade_command upgrade_specs rollup_commands
    match applyDiffSingle present current_packages diffP with
    | none => none
    | some cur2 =>
        some ⟨diffP, buckets.2.1, noopP, commands, applyUpgrades cur2 buckets.2.1⟩

/-! ## Multi-version reconciliation (`ensure_multi_packages`) -/

/-- Python set: a list with membership-checked insertion. -/
def setAdd (s : List Str) (x : Str) : List Str := if x ∈ s then s else s ++ [x]

/-- Python `dict[str, set[str]].setdefault(n, set()).add(v)`. -/
def msetAdd : List (Str × List Str) → Str → Str → List (Str × List Str)
  | [], n, v => [(n, [v])]
  | (k, vs) :: rest, n, v =>
      if k = n then (k, setAdd vs v) :: rest else (k, vs) :: msetAdd rest n v

/-- Python `current_packages.get(n, set())`. -/
def mGet (d : List (Str × List Str)) (n : Str) : List Str :=
  (alookup d n).getD []

/-- Python `current_packages.get(n, set()).discard(v)`: removes `v` from
the version set of `n` when the key exists, otherwise leaves the dict
unchanged (the discard happens on a fresh temporary set). -/
def mdiscard : List (Str × List Str) → Str → Str → List (Str × List Str)
  | [], _, _ => []
  | (k, vs) :: rest, n, v =>
      if k = n then (k, vs.filter (fun w => ¬ w = v)) :: rest
      else (k, vs) :: mdiscard rest n v

/-- Embeds the parsing loop of `ensure_multi_packages` (lines 206-211):
desired name → set of desired versions. -/
def buildDesiredMulti (packages : List Str) (spec_version_join latest : Str) :
    List (Str × List Str) :=
  packages.foldl
    (fun d pkg =>
      let nv := parse_package_version pkg spec_version_join latest
      msetAdd d nv.1 nv.2)
    []

/-- Embeds the classification loop of `ensure_multi_packages`
(lines 213-221): per desired name, desired minus current goes to the diff
bucket and the intersection to the noop bucket. -/
def classifyMulti (desired : List (Str × List Str))
    (current : List (Str × List Str)) :
    List (Str × Str) × List (Str × Str) :=
  desired.foldl
    (fun acc item =>
      let cvs := mGet current item.1
      (acc.1 ++ (item.2.filter (fun v => ¬ v ∈ cvs)).map (fun v => (item.1, v)),
        acc.2 ++ (item.2.filter (fun v => v ∈ cvs)).map (fun v => (item.1, v))))
    ([], [])

/-- The diff bucket of `ensure_multi_packages` as a flat map: per desired
name, the versions desired but not currently installed. -/
def multiDiff (desired current : List (Str × List Str)) : List (Str × Str) :=
  desired.flatMap
    (fun it => (it.2.filter (fun v => ¬ v ∈ mGet current it.1)).map
      (fun v => (it.1, v)))

/-- The noop bucket of `ensure_multi_packages` as a flat map: per desired
name, the versions desired and also currently installed. -/
def multiNoop (desired current : List (Str × List Str)) : List (Str × Str) :=
  desired.flatMap
    (fun it => (it.2.filter (fun v => v ∈ mGet current it.1)).map
      (fun v => (it.1, v)))

/-- Observable outcome of one `ensure_multi_packages` call. -/
structure MultiResult where
  toChange : List (Str × Str)
  noop : List (Str × Str)
  commands : List Str
  current : List (Str × List Str)
deriving DecidableEq

/-- Embeds `ensure_multi_packages` (packaging.py lines 166-242). -/
def ensure_multi_packages (packages : List Str)
    (current_packages : List (Str × List Str)) (present : Bool)
    (install_command uninstall_command : Str)
    (latest spec_version_join command_version_join : Str)
    (rollup_commands : Bool) : MultiResult :=
  if packages = [] then
    ⟨[], [], [], current_packages⟩
  else
    let desired := buildDesiredMulti packages spec_version_join latest
    let buckets := classifyMulti desired current_packages
    let diffP := if present then buckets.1 else buckets.2
    let noopP := if present then buckets.2 else buckets.1
    let diff_specs := quote_package_spec diffP command_version_join
    let command := if present then install_command else uninstall_command
    let commands := issue_commands command diff_specs rollup_commands
    let cur2 := diffP.foldl
      (fun c p => if present then msetAdd c p.1 p.2 else mdiscard c p.1 p.2)
      current_packages
    ⟨diffP, noopP, commands, cur2⟩

/-! ## Versionless reconciliation (`ensure_versionless_packages`) -/

/-- Observable outcome of one `ensure_versionless_packages` call. -/
structure VersionlessResult where
  toChange : List Str
  noop : List Str
  commands : List Str
  current : List Str
deriving DecidableEq

/-- Embeds `ensure_versionless_packages` (packaging.py lines 245-296):
pure set reconciliation, `desired − current` to install and
`desired ∩ current` as noop, swapped when `present` is false; mutation is
set union (present) or set difference (absent). -/
def ensure_versionless_packages (packages : List Str)
    (current_packages : List Str) (present : Bool)
    (install_command uninstall_command : Str) (rollup_commands : Bool) :
    VersionlessResult :=
  if packages = [] then
    ⟨[], [], [], current_packages⟩
  else
    let desired := packages.foldl setAdd []
    let diff0 := desired.filter (fun p => ¬ p ∈ current_packages)
    let noop0 := desired.filter (fun p => p ∈ current_packages)
    let diffP := if present then diff0 else noop0
    let noopP := if present then noop0 else diff0
    let diff_specs := diffP.map shlex_quote
    let command := if present then install_command else uninstall_command
    let commands := issue_commands command diff_specs rollup_commands
    let cur2 :=
      if present then diffP.foldl setAdd current_packages
      else current_packages.filter (fun p => ¬ p ∈ diffP)
    ⟨diffP, noopP, commands, cur2⟩

/-! ## ipset entry equivalence (`IpsetEntries.equivalent_entries`) -/

/-- A parsed ipset entry record: field name → value, where a stored value
may itself be Python `None`. -/
abbrev EntryRecord := List (Str × Option Str)

/-- Python `record.get(attr)`: `none` when the field is missing. -/
def recGet (r : EntryRecord) (attr : Str) : Option Str :=
  (alookup r attr).getD none

/-- The normalisation in `equivalent_entries`: a missing field or a `None`
value becomes the empty string. -/
def normAttr (r : EntryRecord) (attr : Str) : Str :=
  match recGet r attr with
  | none => []
  | some v => v

/-- The fields compared by `equivalent_entries`. -/
def comparedAttrs : List Str := ["setname".data, "entry".data, "extras".data]

/-- The early-return loop of `equivalent_entries` (ipset.py lines 100-109). -/
def eqAttrsLoop (lhs rhs : EntryRecord) : List Str → Bool
  | [] => true
  | a :: rest =>
      if normAttr lhs a = normAttr rhs a then eqAttrsLoop lhs rhs rest
      else false

/-- Embeds `IpsetEntries.equivalent_entries` (ipset.py lines 98-109). -/
def equivalent_entries (lhs rhs : EntryRecord) : Bool :=
  eqAttrsLoop lhs rhs comparedAttrs

-- sanity checks on the leaf functions
example : parse_package_version "ruby=3.1.2".data "=".data "latest".data =
    ("ruby".data, "3.1.2".data) := by decide
example : parse_package_version "ruby".data "=".data "latest".data =
    ("ruby".data, "latest".data) := by decide
example : parse_package_version "a=b=c".data "=".data "latest".data =
    ("a=b".data, "c".data) := by decide
example : parse_package_version "aaa".data "aa".data "latest".data =
    ("a".data, "".data) := by decide
example : shlex_quote "a b".data = "'a b'".data := by decide
example : shlex_quote "ab".data = "ab".data := by decide
example : shlex_quote "".data = "''".data := by decide
example : quote_package_spec [("my pkg".data, "1.0".data)] " ".data =
    ["'my pkg' 1.0".data] := by decide
example : quote_package_spec [("pkg".data, "".data)] "=".data =
    ["pkg".data] := by decide
example : issue_commands "i".data ["a".data, "b".data] true = ["i a b".data] := by
  decide
example : issue_commands "i".data ["a".data, "b".data] false =
    ["i a".data, "i b".data] := by decide
example : issue_commands "i".data [] true = [] := by decide

/-! ## Association-list dictionary lemmas -/

theorem alookup_dinsert (d : Dict) (k v k' : Str) :
    alookup (dinsert d k v) k' = if k' = k then some v else alookup d k' := by
  induction d with
  | nil =>
      by_cases h : k' = k
      · subst h; simp [dinsert, alookup]
      · have h' : ¬ k = k' := fun hh => h hh.symm
        simp [dinsert, alookup, h, h']
  | cons p rest ih =>
      obtain ⟨k0, v0⟩ := p
      by_cases h0 : k0 = k
      · subst h0
        by_cases h1 : k' = k0
        · subst h1; simp [dinsert, alookup]
        · have h1' : ¬ k0 = k' := fun hh => h1 hh.symm
          simp [dinsert, alookup, h1, h1']
      · by_cases h1 : k0 = k'
        · subst h1
          have hne : ¬ k0 = k := h0
          simp [dinsert, alookup, hne, h0]
        · simp [dinsert, alookup, h0, h1, ih]

theorem alookup_eq_none (d : Dict) (k : Str) :
    alookup d k = none ↔ ¬ k ∈ d.map Prod.fst := by
  induction d with
  | nil => simp [alookup]
  | cons p rest ih =>
      obtain ⟨k0, v0⟩ := p
      by_cases h : k0 = k
      · subst h; simp [alookup]
      · have h' : ¬ k = k0 := fun hh => h hh.symm
        simp [alookup, h, h', ih]

theorem alookup_isSome (d : Dict) (k : Str) :
    (alookup d k).isSome = true ↔ k ∈ d.map Prod.fst := by
  rw [Option.isSome_iff_ne_none, ne_eq, alookup_eq_none, not_not]

theorem keys_dinsert (d : Dict) (k v : Str) :
    (dinsert d k v).map Prod.fst =
      if k ∈ d.map Prod.fst then d.map Prod.fst else d.map Prod.fst ++ [k] := by
  induction d with
  | nil => simp [dinsert]
  | cons p rest ih =>
      obtain ⟨k0, v0⟩ := p
      by_cases h : k0 = k
      · subst h; simp [dinsert]
      · have h' : ¬ k = k0 := fun hh => h hh.symm
        by_cases h2 : k ∈ rest.map Prod.fst <;>
          simp [dinsert, h, h', h2, ih]

theorem dictWF_dinsert (d : Dict) (k v : Str) (h : DictWF d) :
    DictWF (dinsert d k v) := by
  unfold DictWF at *
  rw [keys_dinsert]
  by_cases hk : k ∈ d.map Prod.fst
  · simpa [hk] using h
  · simp only [hk, if_false]
    rw [List.nodup_append]
    exact ⟨h, List.nodup_singleton k, by simpa using hk⟩

theorem dinsert_fresh (d : Dict) (k v : Str) (h : ¬ k ∈ d.map Prod.fst) :
    dinsert d k v = d ++ [(k, v)] := by
  induction d with
  | nil => simp [dinsert]
  | cons p rest ih =>
      obtain ⟨k0, v0⟩ := p
      simp only [List.map_cons, List.mem_cons] at h
      push_neg at h
      have h0 : ¬ k0 = k := fun hh => h.1 hh.symm
      simp [dinsert, h0, ih h.2]

theorem dpop_isSome (d : Dict) (k : Str) :
    (dpop d k).isSome = true ↔ (alookup d k).isSome = true := by
  induction d with
  | nil => simp [dpop, alookup]
  | cons p rest ih =>
      obtain ⟨k0, v0⟩ := p
      by_cases h : k0 = k
      · simp [dpop, alookup, h]
      · simpa [dpop, alookup, h] using ih

theorem alookup_dpop_ne (d d' : Dict) (k k' : Str) (hne : ¬ k' = k)
    (h : dpop d k = some d') : alookup d' k' = alookup d k' := by
  induction d generalizing d' with
  | nil => simp [dpop] at h
  | cons p rest ih =>
      obtain ⟨k0, v0⟩ := p
      by_cases h0 : k0 = k
      · simp only [dpop, if_pos h0, Option.some.injEq] at h
        subst h
        subst h0
        have h1 : ¬ k0 = k' := fun hh => hne hh.symm
        simp [alookup, h1]
      · simp only [dpop, if_neg h0, Option.map_eq_some'] at h
        obtain ⟨rest', hrest, hd⟩ := h
        subst hd
        by_cases h1 : k0 = k'
        · simp [alookup, h1]
        · simp [alookup, h1, ih rest' hrest]

theorem keys_dpop_sublist (d d' : Dict) (k : Str) (h : dpop d k = some d') :
    (d'.map Prod.fst).Sublist (d.map Prod.fst) := by
  induction d generalizing d' with
  | nil => simp [dpop] at h
  | cons p rest ih =>
      obtain ⟨k0, v0⟩ := p
      by_cases h0 : k0 = k
      · simp only [dpop, if_pos h0, Option.some.injEq] at h
        subst h
        exact List.sublist_cons_self _ _
      · simp only [dpop, if_neg h0, Option.map_eq_some'] at h
        obtain ⟨rest', hrest, hd⟩ := h
        subst hd
        exact List.Sublist.cons₂ _ (ih rest' hrest)

theorem dictWF_dpop (d d' : Dict) (k : Str) (hwf : DictWF d)
    (h : dpop d k = some d') : DictWF d' :=
  List.Nodup.sublist (keys_dpop_sublist d d' k h) hwf

theorem alookup_dpop_self (d d' : Dict) (k : Str) (hwf : DictWF d)
    (h : dpop d k = some d') : alookup d' k = none := by
  induction d generalizing d' with
  | nil => simp [dpop] at h
  | cons p rest ih =>
      obtain ⟨k0, v0⟩ := p
      have hwf2 : DictWF rest := by
        unfold DictWF at hwf ⊢
        exact (List.nodup_cons.mp (by simpa using hwf)).2
      by_cases h0 : k0 = k
      · simp only [dpop, if_pos h0, Option.some.injEq] at h
        subst h
        subst h0
        unfold DictWF at hwf
        simp only [List.map_cons, List.nodup_cons] at hwf
        exact (alookup_eq_none rest k0).mpr hwf.1
      · simp only [dpop, if_neg h0, Option.map_eq_some'] at h
        obtain ⟨rest', hrest, hd⟩ := h
        subst hd
        simp [alookup, h0, ih rest' hwf2 hrest]

theorem dpop_append_left (d1 d2 : Dict) (k : Str)
    (h : ¬ k ∈ d1.map Prod.fst) :
    dpop (d1 ++ d2) k = (dpop d2 k).map (fun d => d1 ++ d) := by
  induction d1 with
  | nil => simp
  | cons p rest ih =>
      obtain ⟨k0, v0⟩ := p
      simp only [List.map_cons, List.mem_cons] at h
      push_neg at h
      have h0 : ¬ k0 = k := fun hh => h.1 hh.symm
      simp only [List.cons_append, dpop, if_neg h0, List.append_eq]
      rw [ih h.2]
      cases hdp : dpop d2 k <;> simp

/-! ## Classification and mutation lemmas for the single-version variant -/

theorem classifySingle_foldl (current : Dict) (present utl : Bool)
    (latest pv : Str) (desired : Dict)
    (acc : List (Str × Str) × List (Str × Str) × List (Str × Str)) :
    desired.foldl (classifyStepSingle current present utl latest pv) acc =
      (acc.1 ++ bucketFilter current present utl latest pv Bucket.change desired,
        acc.2.1 ++ bucketFilter current present utl latest pv Bucket.upgrade desired,
        acc.2.2 ++ bucketFilter current present utl latest pv Bucket.noop desired) := by
  induction desired generalizing acc with
  | nil => simp [bucketFilter]
  | cons it rest ih =>
      rw [List.foldl_cons, ih]
      cases hb : classifyItem current present utl latest pv it.1 <;>
        simp [classifyStepSingle, bucketFilter, List.filter_cons, hb]

theorem classifySingle_eq (desired current : Dict) (present utl : Bool)
    (latest pv : Str) :
    classifySingle desired current present utl latest pv =
      (bucketFilter current present utl latest pv Bucket.change desired,
        bucketFilter current present utl latest pv Bucket.upgrade desired,
        bucketFilter current present utl latest pv Bucket.noop desired) := by
  unfold classifySingle
  rw [classifySingle_foldl]
  simp

theorem mem_bucketFilter (current : Dict) (present utl : Bool)
    (latest pv : Str) (b : Bucket) (desired : Dict) (q : Str × Str) :
    q ∈ bucketFilter current present utl latest pv b desired ↔
      ∃ it ∈ desired, q = (it.1, pv) ∧
        classifyItem current present utl latest pv it.1 = b := by
  simp only [bucketFilter, List.mem_map, List.mem_filter, decide_eq_true_eq]
  constructor
  · rintro ⟨it, ⟨hit, hcl⟩, hq⟩
    exact ⟨it, hit, hq.symm, hcl⟩
  · rintro ⟨it, hit, hq, hcl⟩
    exact ⟨it, ⟨hit, hcl⟩, hq.symm⟩

theorem mem_keys_bucketFilter (current : Dict) (present utl : Bool)
    (latest pv : Str) (b : Bucket) (desired : Dict) (n : Str) :
    n ∈ (bucketFilter current present utl latest pv b desired).map Prod.fst ↔
      n ∈ desired.map Prod.fst ∧
        classifyItem current present utl latest pv n = b := by
  simp only [List.mem_map]
  constructor
  · rintro ⟨q, hq, hn⟩
    rw [mem_bucketFilter] at hq
    obtain ⟨it, hit, hq, hcl⟩ := hq
    subst hq
    simp only at hn
    subst hn
    exact ⟨⟨it, hit, rfl⟩, hcl⟩
  · rintro ⟨⟨it, hit, hn⟩, hcl⟩
    subst hn
    refine ⟨(it.1, pv), ?_, rfl⟩
    rw [mem_bucketFilter]
    exact ⟨it, hit, rfl, hcl⟩

theorem bucketFilter_values (current : Dict) (present utl : Bool)
    (latest pv : Str) (b : Bucket) (desired : Dict) (q : Str × Str)
    (hq : q ∈ bucketFilter current present utl latest pv b desired) : q.2 = pv := by
  rw [mem_bucketFilter] at hq
  obtain ⟨it, _, hq, _⟩ := hq
  subst hq
  rfl

theorem keys_bucketFilter_sublist (current : Dict) (present utl : Bool)
    (latest pv : Str) (b : Bucket) (desired : Dict) :
    ((bucketFilter current present utl latest pv b desired).map Prod.fst).Sublist
      (desired.map Prod.fst) := by
  unfold bucketFilter
  rw [List.map_map]
  have h : (Prod.fst ∘ fun it : Str × Str => (it.1, pv)) = Prod.fst := rfl
  rw [h]
  exact List.Sublist.map _ (List.filter_sublist _)

theorem bucketFilter_eq_nil (current : Dict) (present utl : Bool)
    (latest pv : Str) (b : Bucket) (desired : Dict)
    (h : ∀ it ∈ desired, ¬ classifyItem current present utl latest pv it.1 = b) :
    bucketFilter current present utl latest pv b desired = [] := by
  unfold bucketFilter
  rw [List.filter_eq_nil_iff.mpr, List.map_nil]
  intro it hit
  simpa using h it hit

theorem bucketFilter_eq_all (current : Dict) (present utl : Bool)
    (latest pv : Str) (b : Bucket) (desired : Dict)
    (h : ∀ it ∈ desired, classifyItem current present utl latest pv it.1 = b) :
    bucketFilter current present utl latest pv b desired =
      desired.map (fun it => (it.1, pv)) := by
  unfold bucketFilter
  rw [List.filter_eq_self.mpr]
  intro it hit
  simpa using h it hit

theorem classifyItem_eq_change_iff (current : Dict) (present utl : Bool)
    (latest pv : Str) (n : Str) :
    classifyItem current present utl latest pv n = Bucket.change ↔
      alookup current n = none := by
  unfold classifyItem
  cases h : alookup current n with
  | none => simp
  | some cv =>
      simp only []
      constructor
      · intro hcl
        by_cases hc : pv ≠ cv ∧ present = true
        · rw [if_pos hc] at hcl
          by_cases hl : pv = latest ∧ utl = false
          · rw [if_pos hl] at hcl; cases hcl
          · rw [if_neg hl] at hcl; cases hcl
        · rw [if_neg hc] at hcl; cases hcl
      · intro hcl; cases hcl

theorem classifyItem_false_ne_upgrade (current : Dict) (utl : Bool)
    (latest pv : Str) (n : Str) :
    ¬ classifyItem current false utl latest pv n = Bucket.upgrade := by
  unfold classifyItem
  cases h : alookup current n with
  | none => simp
  | some cv => simp

theorem classifyItem_congr (cur1 cur2 : Dict) (present utl : Bool)
    (latest pv : Str) (n : Str) (h : alookup cur1 n = alookup cur2 n) :
    classifyItem cur1 present utl latest pv n =
      classifyItem cur2 present utl latest pv n := by
  unfold classifyItem
  rw [h]

theorem classifyItem_some_pv (current : Dict) (present utl : Bool)
    (latest pv : Str) (n : Str) (h : alookup current n = some pv) :
    classifyItem current present utl latest pv n = Bucket.noop := by
  unfold classifyItem
  rw [h]
  simp

theorem applyDiffSingle_true (pairs : List (Str × Str)) (cur : Dict) :
    applyDiffSingle true cur pairs = some (applyUpgrades cur pairs) := by
  induction pairs generalizing cur with
  | nil => simp [applyDiffSingle, applyUpgrades]
  | cons p rest ih => simp [applyDiffSingle, applyUpgrades, ih, List.foldl_cons]

theorem applyUpgrades_nil (cur : Dict) : applyUpgrades cur [] = cur := rfl

theorem alookup_applyUpgrades (pairs : List (Str × Str)) (pv : Str)
    (hpv : ∀ p ∈ pairs, p.2 = pv) (cur : Dict) (k : Str) :
    alookup (applyUpgrades cur pairs) k =
      if k ∈ pairs.map Prod.fst then some pv else alookup cur k := by
  induction pairs generalizing cur with
  | nil => simp [applyUpgrades]
  | cons p rest ih =>
      have hp2 : p.2 = pv := hpv p (List.mem_cons_self _ _)
      have hrest : ∀ q ∈ rest, q.2 = pv := fun q hq => hpv q (List.mem_cons_of_mem _ hq)
      unfold applyUpgrades at *
      rw [List.foldl_cons, ih hrest]
      by_cases hk : k ∈ rest.map Prod.fst
      · simp [hk]
      · by_cases hkp : k = p.1
        · simp [hk, hkp, alookup_dinsert, hp2]
        · simp [hk, hkp, alookup_dinsert]

theorem applyDiffSingle_false_char (pairs : List (Str × Str)) :
    ∀ cur : Dict, DictWF cur → (pairs.map Prod.fst).Nodup →
      (∀ n ∈ pairs.map Prod.fst, (alookup cur n).isSome = true) →
      ∃ cur2, applyDiffSingle false cur pairs = some cur2 ∧ DictWF cur2 ∧
        ∀ k, alookup cur2 k =
          if k ∈ pairs.map Prod.fst then none else alookup cur k := by
  induction pairs with
  | nil =>
      intro cur hwf _ _
      exact ⟨cur, rfl, hwf, by simp⟩
  | cons p rest ih =>
      intro cur hwf hnd hsome
      have hpk : (alookup cur p.1).isSome = true :=
        hsome p.1 (by simp)
      have hdp : (dpop cur p.1).isSome = true := (dpop_isSome cur p.1).mpr hpk
      obtain ⟨cur1, hcur1⟩ := Option.isSome_iff_exists.mp hdp
      have hwf1 : DictWF cur1 := dictWF_dpop cur cur1 p.1 hwf hcur1
      have hnone : alookup cur1 p.1 = none := alookup_dpop_self cur cur1 p.1 hwf hcur1
      have hne : ∀ k, ¬ k = p.1 → alookup cur1 k = alookup cur k :=
        fun k hk => alookup_dpop_ne cur cur1 p.1 k hk hcur1
      simp only [List.map_cons, List.nodup_cons] at hnd
      have hsome1 : ∀ n ∈ rest.map Prod.fst, (alookup cur1 n).isSome = true := by
        intro n hn
        have hnp : ¬ n = p.1 := fun hh => hnd.1 (hh ▸ hn)
        rw [hne n hnp]
        exact hsome n (by simp [hn])
      obtain ⟨cur2, hstep, hwf2, hchar⟩ := ih cur1 hwf1 hnd.2 hsome1
      refine ⟨cur2, ?_, hwf2, ?_⟩
      · simp only [applyDiffSingle, Bool.false_eq_true, if_false, hcur1]
        exact hstep
      · intro k
        rw [hchar k]
        by_cases hk1 : k ∈ rest.map Prod.fst
        · simp [hk1]
        · by_cases hk2 : k = p.1
          · subst hk2
            simp [hk1, hnone]
          · simp [hk1, hk2, hne k hk2]

theorem applyDiffSingle_false_isSome (pairs : List (Str × Str)) :
    ∀ cur : Dict, (pairs.map Prod.fst).Nodup →
      (∀ n ∈ pairs.map Prod.fst, (alookup cur n).isSome = true) →
      (applyDiffSingle false cur pairs).isSome = true := by
  induction pairs with
  | nil => intro cur _ _; simp [applyDiffSingle]
  | cons p rest ih =>
      intro cur hnd hsome
      have hpk : (alookup cur p.1).isSome = true := hsome p.1 (by simp)
      have hdp : (dpop cur p.1).isSome = true := (dpop_isSome cur p.1).mpr hpk
      obtain ⟨cur1, hcur1⟩ := Option.isSome_iff_exists.mp hdp
      have hne : ∀ k, ¬ k = p.1 → alookup cur1 k = alookup cur k :=
        fun k hk => alookup_dpop_ne cur cur1 p.1 k hk hcur1
      simp only [List.map_cons, List.nodup_cons] at hnd
      have hsome1 : ∀ n ∈ rest.map Prod.fst, (alookup cur1 n).isSome = true := by
        intro n hn
        have hnp : ¬ n = p.1 := fun hh => hnd.1 (hh ▸ hn)
        rw [hne n hnp]
        exact hsome n (by simp [hn])
      simp only [applyDiffSingle, Bool.false_eq_true, if_false, hcur1]
      exact ih cur1 hnd.2 hsome1

theorem parseLoop_wf (pkgs : List Str) (svj latest : Str) :
    DictWF (parseLoop pkgs svj latest).1 := by
  unfold parseLoop
  have h : ∀ (l : List Str) (acc : Dict × Str), DictWF acc.1 →
      DictWF (l.foldl
        (fun acc pkg =>
          let nv := parse_package_version pkg svj latest
          (dinsert acc.1 nv.1 nv.2, nv.2)) acc).1 := by
    intro l
    induction l with
    | nil => intro acc h; exact h
    | cons pkg rest ih =>
        intro acc h
        rw [List.foldl_cons]
        exact ih _ (dictWF_dinsert _ _ _ h)
  exact h pkgs ([], latest) (by simp [DictWF])

theorem quote_package_spec_nil (cvj : Str) : quote_package_spec [] cvj = [] := rfl

theorem issue_commands_nil (c : Str) (rc : Bool) : issue_commands c [] rc = [] := by
  simp [issue_commands]

theorem single_second_item_true
    (desired cur : Dict) (utl : Bool) (latest pv : Str)
    (it : Str × Str) (hit : it ∈ desired) :
    classifyItem
      (applyUpgrades
        (applyUpgrades cur (bucketFilter cur true utl latest pv Bucket.change desired))
        (bucketFilter cur true utl latest pv Bucket.upgrade desired))
      true utl latest pv it.1 = Bucket.noop := by
  have hlook : ∀ k,
      alookup
        (applyUpgrades
          (applyUpgrades cur (bucketFilter cur true utl latest pv Bucket.change desired))
          (bucketFilter cur true utl latest pv Bucket.upgrade desired)) k =
      if k ∈ (bucketFilter cur true utl latest pv Bucket.upgrade desired).map Prod.fst
      then some pv
      else if k ∈ (bucketFilter cur true utl latest pv Bucket.change desired).map Prod.fst
      then some pv
      else alookup cur k := by
    intro k
    rw [alookup_applyUpgrades _ pv
        (fun q hq => bucketFilter_values cur true utl latest pv Bucket.upgrade desired q hq),
      alookup_applyUpgrades _ pv
        (fun q hq => bucketFilter_values cur true utl latest pv Bucket.change desired q hq)]
  have hmem : it.1 ∈ desired.map Prod.fst := List.mem_map_of_mem Prod.fst hit
  cases hb : classifyItem cur true utl latest pv it.1 with
  | change =>
      have hk : it.1 ∈ (bucketFilter cur true utl latest pv Bucket.change desired).map Prod.fst :=
        (mem_keys_bucketFilter cur true utl latest pv Bucket.change desired it.1).mpr
          ⟨hmem, hb⟩
      apply classifyItem_some_pv
      rw [hlook]
      by_cases hku : it.1 ∈ (bucketFilter cur true utl latest pv Bucket.upgrade desired).map Prod.fst
      · simp [hku]
      · simp [hku, hk]
  | upgrade =>
      have hk : it.1 ∈ (bucketFilter cur true utl latest pv Bucket.upgrade desired).map Prod.fst :=
        (mem_keys_bucketFilter cur true utl latest pv Bucket.upgrade desired it.1).mpr
          ⟨hmem, hb⟩
      apply classifyItem_some_pv
      rw [hlook]
      simp [hk]
  | noop =>
      have hk1 : ¬ it.1 ∈ (bucketFilter cur true utl latest pv Bucket.change desired).map Prod.fst := by
        intro hmem2
        have hcl := ((mem_keys_bucketFilter cur true utl latest pv Bucket.change desired it.1).mp hmem2).2
        rw [hb] at hcl
        cases hcl
      have hk2 : ¬ it.1 ∈ (bucketFilter cur true utl latest pv Bucket.upgrade desired).map Prod.fst := by
        intro hmem2
        have hcl := ((mem_keys_bucketFilter cur true utl latest pv Bucket.upgrade desired it.1).mp hmem2).2
        rw [hb] at hcl
        cases hcl
      have heq : alookup
          (applyUpgrades
            (applyUpgrades cur (bucketFilter cur true utl latest pv Bucket.change desired))
            (bucketFilter cur true utl latest pv Bucket.upgrade desired)) it.1 =
          alookup cur it.1 := by
        rw [hlook]
        simp [hk1, hk2]
      rw [classifyItem_congr _ cur true utl latest pv it.1 heq, hb]

theorem single_second_item_false
    (desired cur : Dict) (utl : Bool) (latest pv : Str) (curA : Dict)
    (hchar : ∀ k, alookup curA k =
      if k ∈ (bucketFilter cur false utl latest pv Bucket.noop desired).map Prod.fst
      then none else alookup cur k)
    (it : Str × Str) (hit : it ∈ desired) :
    classifyItem curA false utl latest pv it.1 = Bucket.change := by
  rw [classifyItem_eq_change_iff, hchar]
  by_cases hk : it.1 ∈ (bucketFilter cur false utl latest pv Bucket.noop desired).map Prod.fst
  · simp [hk]
  · have hmem : it.1 ∈ desired.map Prod.fst := List.mem_map_of_mem Prod.fst hit
    have hnn : ¬ classifyItem cur false utl latest pv it.1 = Bucket.noop := fun hc =>
      hk ((mem_keys_bucketFilter cur false utl latest pv Bucket.noop desired it.1).mpr
        ⟨hmem, hc⟩)
    simp only [hk, if_false]
    cases hcb : classifyItem cur false utl latest pv it.1 with
    | change => exact (classifyItem_eq_change_iff cur false utl latest pv it.1).mp hcb
    | upgrade => exact absurd hcb (classifyItem_false_ne_upgrade cur utl latest pv it.1)
    | noop => exact absurd hcb hnn

theorem ensure_single_spec_true (pkgs : List Str) (cur : Dict) (utl : Bool)
    (ic uc gc latest svj cvj : Str) (rc : Bool) (hp : ¬ pkgs = []) :
    ensure_single_packages pkgs cur true utl ic uc gc latest svj cvj rc =
      some
        ⟨bucketFilter cur true utl latest (parseLoop pkgs svj latest).2
            Bucket.change (parseLoop pkgs svj latest).1,
          bucketFilter cur true utl latest (parseLoop pkgs svj latest).2
            Bucket.upgrade (parseLoop pkgs svj latest).1,
          bucketFilter cur true utl latest (parseLoop pkgs svj latest).2
            Bucket.noop (parseLoop pkgs svj latest).1,
          issue_commands ic
              (quote_package_spec
                (bucketFilter cur true utl latest (parseLoop pkgs svj latest).2
                  Bucket.change (parseLoop pkgs svj latest).1) cvj) rc ++
            issue_commands gc
              (quote_package_spec
                (bucketFilter cur true utl latest (parseLoop pkgs svj latest).2
                  Bucket.upgrade (parseLoop pkgs svj latest).1) cvj) rc,
          applyUpgrades
            (applyUpgrades cur
              (bucketFilter cur true utl latest (parseLoop pkgs svj latest).2
                Bucket.change (parseLoop pkgs svj latest).1))
            (bucketFilter cur true utl latest (parseLoop pkgs svj latest).2
              Bucket.upgrade (parseLoop pkgs svj latest).1)⟩ := by
  simp only [ensure_single_packages, if_neg hp, classifySingle_eq, if_true,
    applyDiffSingle_true]

theorem ensure_single_spec_false (pkgs : List Str) (cur : Dict) (utl : Bool)
    (ic uc gc latest svj cvj : Str) (rc : Bool) (hp : ¬ pkgs = []) (curA : Dict)
    (hA : applyDiffSingle false cur
        (bucketFilter cur false utl latest (parseLoop pkgs svj latest).2
          Bucket.noop (parseLoop pkgs svj latest).1) = some curA) :
    ensure_single_packages pkgs cur false utl ic uc gc latest svj cvj rc =
      some
        ⟨bucketFilter cur false utl latest (parseLoop pkgs svj latest).2
            Bucket.noop (parseLoop pkgs svj latest).1,
          bucketFilter cur false utl latest (parseLoop pkgs svj latest).2
            Bucket.upgrade (parseLoop pkgs svj latest).1,
          bucketFilter cur false utl latest (parseLoop pkgs svj latest).2
            Bucket.change (parseLoop pkgs svj latest).1,
          issue_commands uc
              (quote_package_spec
                (bucketFilter cur false utl latest (parseLoop pkgs svj latest).2
                  Bucket.noop (parseLoop pkgs svj latest).1) cvj) rc ++
            issue_commands gc
              (quote_package_spec
                (bucketFilter cur false utl latest (parseLoop pkgs svj latest).2
                  Bucket.upgrade (parseLoop pkgs svj latest).1) cvj) rc,
          applyUpgrades curA
            (bucketFilter cur false utl latest (parseLoop pkgs svj latest).2
              Bucket.upgrade (parseLoop pkgs svj latest).1)⟩ := by
  simp only [ensure_single_packages, if_neg hp, classifySingle_eq,
    Bool.false_eq_true, if_false, hA]

theorem single_idem (pkgs : List Str) (cur : Dict) (present utl : Bool)
    (ic uc gc latest svj cvj : Str) (rc : Bool) (r1 r2 : SingleResult)
    (hwf : DictWF cur)
    (h1 : ensure_single_packages pkgs cur present utl ic uc gc latest svj cvj rc =
      some r1)
    (h2 : ensure_single_packages pkgs r1.current present utl ic uc gc latest svj
      cvj rc = some r2) :
    r2.toChange = [] ∧ r2.toUpgrade = [] ∧ r2.commands = [] := by
  by_cases hp : pkgs = []
  · subst hp
    simp only [ensure_single_packages, eq_self_iff_true, if_true,
      Option.some.injEq] at h2
    subst h2
    exact ⟨rfl, rfl, rfl⟩
  · have hdwf : DictWF (parseLoop pkgs svj latest).1 := parseLoop_wf pkgs svj latest
    cases present with
    | true =>
        rw [ensure_single_spec_true pkgs cur utl ic uc gc latest svj cvj rc hp] at h1
        have hcur : r1.current =
            applyUpgrades
              (applyUpgrades cur
                (bucketFilter cur true utl latest (parseLoop pkgs svj latest).2
                  Bucket.change (parseLoop pkgs svj latest).1))
              (bucketFilter cur true utl latest (parseLoop pkgs svj latest).2
                Bucket.upgrade (parseLoop pkgs svj latest).1) := by
          have h1' := (Option.some.injEq _ _).mp h1.symm
          rw [h1']
        rw [hcur] at h2
        have hnoop2 : ∀ it ∈ (parseLoop pkgs svj latest).1,
            classifyItem
              (applyUpgrades
                (applyUpgrades cur
                  (bucketFilter cur true utl latest (parseLoop pkgs svj latest).2
                    Bucket.change (parseLoop pkgs svj latest).1))
                (bucketFilter cur true utl latest (parseLoop pkgs svj latest).2
                  Bucket.upgrade (parseLoop pkgs svj latest).1))
              true utl latest (parseLoop pkgs svj latest).2 it.1 = Bucket.noop :=
          fun it hit =>
            single_second_item_true (parseLoop pkgs svj latest).1 cur utl latest
              (parseLoop pkgs svj latest).2 it hit
        have hchg2 : bucketFilter
            (applyUpgrades
              (applyUpgrades cur
                (bucketFilter cur true utl latest (parseLoop pkgs svj latest).2
                  Bucket.change (parseLoop pkgs svj latest).1))
              (bucketFilter cur true utl latest (parseLoop pkgs svj latest).2
                Bucket.upgrade (parseLoop pkgs svj latest).1))
            true utl latest (parseLoop pkgs svj latest).2 Bucket.change
            (parseLoop pkgs svj latest).1 = [] := by
          apply bucketFilter_eq_nil
          intro it hit
          rw [hnoop2 it hit]
          simp
        have hupg2 : bucketFilter
            (applyUpgrades
              (applyUpgrades cur
                (bucketFilter cur true utl latest (parseLoop pkgs svj latest).2
                  Bucket.change (parseLoop pkgs svj latest).1))
              (bucketFilter cur true utl latest (parseLoop pkgs svj latest).2
                Bucket.upgrade (parseLoop pkgs svj latest).1))
            true utl latest (parseLoop pkgs svj latest).2 Bucket.upgrade
            (parseLoop pkgs svj latest).1 = [] := by
          apply bucketFilter_eq_nil
          intro it hit
          rw [hnoop2 it hit]
          simp
        rw [ensure_single_spec_true pkgs _ utl ic uc gc latest svj cvj rc hp,
          hchg2, hupg2] at h2
        simp only [quote_package_spec_nil, issue_commands_nil, List.nil_append,
          Option.some.injEq] at h2
        subst h2
        exact ⟨rfl, rfl, rfl⟩
    | false =>
        have hnd : ((bucketFilter cur false utl latest (parseLoop pkgs svj latest).2
            Bucket.noop (parseLoop pkgs svj latest).1).map Prod.fst).Nodup :=
          List.Nodup.sublist
            (keys_bucketFilter_sublist cur false utl latest
              (parseLoop pkgs svj latest).2 Bucket.noop (parseLoop pkgs svj latest).1)
            hdwf
        have hsome : ∀ n ∈ (bucketFilter cur false utl latest
            (parseLoop pkgs svj latest).2 Bucket.noop
            (parseLoop pkgs svj latest).1).map Prod.fst,
            (alookup cur n).isSome = true := by
          intro n hn
          have hcl := ((mem_keys_bucketFilter cur false utl latest
            (parseLoop pkgs svj latest).2 Bucket.noop
            (parseLoop pkgs svj latest).1 n).mp hn).2
          rw [Option.isSome_iff_ne_none]
          intro hnone
          have := (classifyItem_eq_change_iff cur false utl latest
            (parseLoop pkgs svj latest).2 n).mpr hnone
          rw [hcl] at this
          cases this
        obtain ⟨curA, hA, hwfA, hcharA⟩ :=
          applyDiffSingle_false_char _ cur hwf hnd hsome
        have hupgnil : bucketFilter cur false utl latest
            (parseLoop pkgs svj latest).2 Bucket.upgrade
            (parseLoop pkgs svj latest).1 = [] := by
          apply bucketFilter_eq_nil
          intro it _
          exact classifyItem_false_ne_upgrade cur utl latest
            (parseLoop pkgs svj latest).2 it.1
        rw [ensure_single_spec_false pkgs cur utl ic uc gc latest svj cvj rc hp
          curA hA] at h1
        have hcur : r1.current = curA := by
          have h1' := (Option.some.injEq _ _).mp h1.symm
          rw [h1', hupgnil]
          rfl
        rw [hcur] at h2
        have hchange2 : ∀ it ∈ (parseLoop pkgs svj latest).1,
            classifyItem curA false utl latest (parseLoop pkgs svj latest).2 it.1 =
              Bucket.change :=
          fun it hit =>
            single_second_item_false (parseLoop pkgs svj latest).1 cur utl latest
              (parseLoop pkgs svj latest).2 curA hcharA it hit
        have hnoop2 : bucketFilter curA false utl latest
            (parseLoop pkgs svj latest).2 Bucket.noop
            (parseLoop pkgs svj latest).1 = [] := by
          apply bucketFilter_eq_nil
          intro it hit
          rw [hchange2 it hit]
          simp
        have hupg2 : bucketFilter curA false utl latest
            (parseLoop pkgs svj latest).2 Bucket.upgrade
            (parseLoop pkgs svj latest).1 = [] := by
          apply bucketFilter_eq_nil
          intro it _
          exact classifyItem_false_ne_upgrade curA utl latest
            (parseLoop pkgs svj latest).2 it.1
        have hA2 : applyDiffSingle false curA
            (bucketFilter curA false utl latest (parseLoop pkgs svj latest).2
              Bucket.noop (parseLoop pkgs svj latest).1) = some curA := by
          rw [hnoop2]
          rfl
        rw [ensure_single_spec_false pkgs curA utl ic uc gc latest svj cvj rc hp
          curA hA2, hnoop2, hupg2] at h2
        simp only [quote_package_spec_nil, issue_commands_nil, List.nil_append,
          Option.some.injEq] at h2
        subst h2
        exact ⟨rfl, rfl, rfl⟩

/-! ## Multi-version lemmas -/

theorem mem_setAdd (vs : List Str) (v w : Str) :
    w ∈ setAdd vs v ↔ w ∈ vs ∨ w = v := by
  unfold setAdd
  by_cases h : v ∈ vs
  · simp only [if_pos h]
    constructor
    · exact fun hw => Or.inl hw
    · rintro (hw | hw)
      · exact hw
      · exact hw ▸ h
  · simp [if_neg h]

theorem mGet_msetAdd (d : List (Str × List Str)) (n v k : Str) :
    mGet (msetAdd d n v) k =
      if k = n then setAdd (mGet d n) v else mGet d k := by
  induction d with
  | nil =>
      by_cases h : k = n
      · subst h; simp [msetAdd, mGet, alookup, setAdd]
      · have h' : ¬ n = k := fun hh => h hh.symm
        simp [msetAdd, mGet, alookup, h, h']
  | cons p rest ih =>
      obtain ⟨k0, vs⟩ := p
      by_cases h0 : k0 = n
      · subst h0
        by_cases h1 : k = k0
        · subst h1; simp [msetAdd, mGet, alookup]
        · have h1' : ¬ k0 = k := fun hh => h1 hh.symm
          simp [msetAdd, mGet, alookup, h1, h1']
      · by_cases h1 : k0 = k
        · subst h1
          have h2 : ¬ k0 = n := h0
          simp [msetAdd, mGet, alookup, h0, h2]
        · simp only [msetAdd, if_neg h0]
          have hl : mGet ((k0, vs) :: msetAdd rest n v) k =
              mGet (msetAdd rest n v) k := by
            simp [mGet, alookup, h1]
          rw [hl, ih]
          by_cases h2 : k = n
          · simp [h2, mGet, alookup, h0]
          · simp [h2, mGet, alookup, h1]

theorem mem_addAll (pairs : List (Str × Str)) :
    ∀ (cur : List (Str × List Str)) (n v : Str),
      v ∈ mGet (pairs.foldl (fun c p => msetAdd c p.1 p.2) cur) n ↔
        (n, v) ∈ pairs ∨ v ∈ mGet cur n := by
  induction pairs with
  | nil => intro cur n v; simp
  | cons p rest ih =>
      intro cur n v
      rw [List.foldl_cons, ih]
      by_cases hn : n = p.1
      · subst hn
        rw [mGet_msetAdd]
        simp only [eq_self_iff_true, if_true, mem_setAdd, List.mem_cons,
          Prod.ext_iff]
        constructor
        · rintro (h | h | h)
          · exact Or.inl (Or.inr h)
          · exact Or.inr h
          · exact Or.inl (Or.inl ⟨trivial, h⟩)
        · rintro ((⟨_, h⟩ | h) | h)
          · exact Or.inr (Or.inr h)
          · exact Or.inl h
          · exact Or.inr (Or.inl h)
      · rw [mGet_msetAdd, if_neg hn]
        simp only [List.mem_cons, Prod.ext_iff]
        constructor
        · rintro (h | h)
          · exact Or.inl (Or.inr h)
          · exact Or.inr h
        · rintro ((⟨h1, _⟩ | h) | h)
          · exact absurd h1 hn
          · exact Or.inl h
          · exact Or.inr h

theorem mGet_mdiscard (d : List (Str × List Str)) (n v k : Str) :
    mGet (mdiscard d n v) k =
      if k = n then (mGet d n).filter (fun w => ¬ w = v) else mGet d k := by
  induction d with
  | nil =>
      by_cases h : k = n
      · subst h; simp [mdiscard, mGet, alookup]
      · simp [mdiscard, mGet, alookup, h]
  | cons p rest ih =>
      obtain ⟨k0, vs⟩ := p
      by_cases h0 : k0 = n
      · subst h0
        by_cases h1 : k = k0
        · subst h1; simp [mdiscard, mGet, alookup]
        · have h1' : ¬ k0 = k := fun hh => h1 hh.symm
          simp [mdiscard, mGet, alookup, h1, h1']
      · by_cases h1 : k0 = k
        · subst h1
          have h2 : ¬ k0 = n := h0
          simp [mdiscard, mGet, alookup, h0, h2]
        · simp only [mdiscard, if_neg h0]
          have hl : mGet ((k0, vs) :: mdiscard rest n v) k =
              mGet (mdiscard rest n v) k := by
            simp [mGet, alookup, h1]
          rw [hl, ih]
          by_cases h2 : k = n
          · simp [h2, mGet, alookup, h0]
          · simp [h2, mGet, alookup, h1]

theorem mem_discardAll (pairs : List (Str × Str)) :
    ∀ (cur : List (Str × List Str)) (n v : Str),
      v ∈ mGet (pairs.foldl (fun c p => mdiscard c p.1 p.2) cur) n ↔
        v ∈ mGet cur n ∧ ¬ (n, v) ∈ pairs := by
  induction pairs with
  | nil => intro cur n v; simp
  | cons p rest ih =>
      intro cur n v
      rw [List.foldl_cons, ih]
      by_cases hn : n = p.1
      · subst hn
        rw [mGet_mdiscard]
        simp only [eq_self_iff_true, if_true, List.mem_filter, List.mem_cons,
          Prod.ext_iff, decide_eq_true_eq]
        constructor
        · rintro ⟨⟨h1, h2⟩, h3⟩
          refine ⟨h1, ?_⟩
          rintro (⟨_, hv⟩ | hm)
          · exact h2 hv
          · exact h3 hm
        · rintro ⟨h1, h2⟩
          refine ⟨⟨h1, fun hv => h2 (Or.inl ⟨trivial, hv⟩)⟩,
            fun hm => h2 (Or.inr hm)⟩
      · rw [mGet_mdiscard, if_neg hn]
        simp only [List.mem_cons, Prod.ext_iff]
        constructor
        · rintro ⟨h1, h2⟩
          refine ⟨h1, ?_⟩
          rintro (⟨he, _⟩ | hm)
          · exact hn he
          · exact h2 hm
        · rintro ⟨h1, h2⟩
          exact ⟨h1, fun hm => h2 (Or.inr hm)⟩

theorem classifyMulti_foldl (desired current : List (Str × List Str))
    (acc : List (Str × Str) × List (Str × Str)) :
    desired.foldl
      (fun acc item =>
        let cvs := mGet current item.1
        (acc.1 ++ (item.2.filter (fun v => ¬ v ∈ cvs)).map (fun v => (item.1, v)),
          acc.2 ++ (item.2.filter (fun v => v ∈ cvs)).map (fun v => (item.1, v))))
      acc =
      (acc.1 ++ multiDiff desired current, acc.2 ++ multiNoop desired current) := by
  induction desired generalizing acc with
  | nil => simp [multiDiff, multiNoop]
  | cons it rest ih =>
      rw [List.foldl_cons, ih]
      simp [multiDiff, multiNoop, List.flatMap_cons, List.append_assoc]

theorem classifyMulti_eq (desired current : List (Str × List Str)) :
    classifyMulti desired current =
      (multiDiff desired current, multiNoop desired current) := by
  unfold classifyMulti
  rw [classifyMulti_foldl]
  simp

theorem mem_multiDiff (desired current : List (Str × List Str)) (n v : Str) :
    (n, v) ∈ multiDiff desired current ↔
      ∃ it ∈ desired, it.1 = n ∧ v ∈ it.2 ∧ ¬ v ∈ mGet current n := by
  unfold multiDiff
  simp only [List.mem_flatMap, List.mem_map, List.mem_filter, Prod.mk.injEq,
    decide_eq_true_eq]
  constructor
  · rintro ⟨it, hit, w, ⟨hw, hnw⟩, hn, hv⟩
    subst hn
    subst hv
    exact ⟨it, hit, rfl, hw, by simpa using hnw⟩
  · rintro ⟨it, hit, hn, hv, hnv⟩
    subst hn
    exact ⟨it, hit, v, ⟨hv, by simpa using hnv⟩, rfl, rfl⟩

theorem mem_multiNoop (desired current : List (Str × List Str)) (n v : Str) :
    (n, v) ∈ multiNoop desired current ↔
      ∃ it ∈ desired, it.1 = n ∧ v ∈ it.2 ∧ v ∈ mGet current n := by
  unfold multiNoop
  simp only [List.mem_flatMap, List.mem_map, List.mem_filter, Prod.mk.injEq,
    decide_eq_true_eq]
  constructor
  · rintro ⟨it, hit, w, ⟨hw, hnw⟩, hn, hv⟩
    subst hn
    subst hv
    exact ⟨it, hit, rfl, hw, hnw⟩
  · rintro ⟨it, hit, hn, hv, hnv⟩
    subst hn
    exact ⟨it, hit, v, ⟨hv, hnv⟩, rfl, rfl⟩

theorem multiDiff_eq_nil (desired current : List (Str × List Str))
    (h : ∀ it ∈ desired, ∀ v ∈ it.2, v ∈ mGet current it.1) :
    multiDiff desired current = [] := by
  unfold multiDiff
  induction desired with
  | nil => rfl
  | cons it rest ih =>
      rw [List.flatMap_cons]
      rw [List.filter_eq_nil_iff.mpr
        (fun v hv => by simpa using h it (List.mem_cons_self _ _) v hv)]
      simpa using ih (fun it2 hit2 => h it2 (List.mem_cons_of_mem _ hit2))

theorem multiNoop_eq_nil (desired current : List (Str × List Str))
    (h : ∀ it ∈ desired, ∀ v ∈ it.2, ¬ v ∈ mGet current it.1) :
    multiNoop desired current = [] := by
  unfold multiNoop
  induction desired with
  | nil => rfl
  | cons it rest ih =>
      rw [List.flatMap_cons]
      rw [List.filter_eq_nil_iff.mpr
        (fun v hv => by simpa using h it (List.mem_cons_self _ _) v hv)]
      simpa using ih (fun it2 hit2 => h it2 (List.mem_cons_of_mem _ hit2))

theorem ensure_multi_spec (pkgs : List Str)
    (cur : List (Str × List Str)) (present : Bool) (ic uc latest svj cvj : Str)
    (rc : Bool) (hp : ¬ pkgs = []) :
    ensure_multi_packages pkgs cur present ic uc latest svj cvj rc =
      ⟨(if present
        then multiDiff (buildDesiredMulti pkgs svj latest) cur
        else multiNoop (buildDesiredMulti pkgs svj latest) cur),
        (if present
         then multiNoop (buildDesiredMulti pkgs svj latest) cur
         else multiDiff (buildDesiredMulti pkgs svj latest) cur),
        issue_commands (if present then ic else uc)
          (quote_package_spec
            (if present
             then multiDiff (buildDesiredMulti pkgs svj latest) cur
             else multiNoop (buildDesiredMulti pkgs svj latest) cur) cvj) rc,
        (if present
         then multiDiff (buildDesiredMulti pkgs svj latest) cur
         else multiNoop (buildDesiredMulti pkgs svj latest) cur).foldl
          (fun c p => if present then msetAdd c p.1 p.2 else mdiscard c p.1 p.2)
          cur⟩ := by
  simp only [ensure_multi_packages, if_neg hp, classifyMulti_eq]

theorem multi_idem (pkgs : List Str) (cur : List (Str × List Str))
    (present : Bool) (ic uc latest svj cvj : Str) (rc : Bool) :
    (ensure_multi_packages pkgs
        (ensure_multi_packages pkgs cur present ic uc latest svj cvj rc).current
        present ic uc latest svj cvj rc).toChange = [] ∧
    (ensure_multi_packages pkgs
        (ensure_multi_packages pkgs cur present ic uc latest svj cvj rc).current
        present ic uc latest svj cvj rc).commands = [] := by
  by_cases hp : pkgs = []
  · subst hp
    simp [ensure_multi_packages]
  · cases present with
    | true =>
        rw [ensure_multi_spec pkgs cur true ic uc latest svj cvj rc hp]
        simp only [if_true]
        have hnil : multiDiff (buildDesiredMulti pkgs svj latest)
            ((multiDiff (buildDesiredMulti pkgs svj latest) cur).foldl
              (fun c p => msetAdd c p.1 p.2) cur) = [] := by
          apply multiDiff_eq_nil
          intro it hit v hv
          rw [mem_addAll]
          by_cases hc : v ∈ mGet cur it.1
          · exact Or.inr hc
          · exact Or.inl ((mem_multiDiff _ cur it.1 v).mpr ⟨it, hit, rfl, hv, hc⟩)
        rw [ensure_multi_spec pkgs _ true ic uc latest svj cvj rc hp]
        simp only [if_true, hnil, quote_package_spec_nil, issue_commands_nil]
        exact ⟨trivial, trivial⟩
    | false =>
        rw [ensure_multi_spec pkgs cur false ic uc latest svj cvj rc hp]
        simp only [Bool.false_eq_true, if_false]
        have hnil : multiNoop (buildDesiredMulti pkgs svj latest)
            ((multiNoop (buildDesiredMulti pkgs svj latest) cur).foldl
              (fun c p => mdiscard c p.1 p.2) cur) = [] := by
          apply multiNoop_eq_nil
          intro it hit v hv
          rw [mem_discardAll]
          rintro ⟨hmem, hnot⟩
          exact hnot ((mem_multiNoop _ cur it.1 v).mpr ⟨it, hit, rfl, hv, hmem⟩)
        rw [ensure_multi_spec pkgs _ false ic uc latest svj cvj rc hp]
        simp only [Bool.false_eq_true, if_false, hnil, quote_package_spec_nil,
          issue_commands_nil]
        exact ⟨trivial, trivial⟩

/-! ## Versionless lemmas -/

theorem mem_foldl_setAdd (l : List Str) :
    ∀ (s : List Str) (x : Str), x ∈ l.foldl setAdd s ↔ x ∈ s ∨ x ∈ l := by
  induction l with
  | nil => intro s x; simp
  | cons a rest ih =>
      intro s x
      rw [List.foldl_cons, ih, mem_setAdd]
      constructor
      · rintro ((h | h) | h)
        · exact Or.inl h
        · exact Or.inr (h ▸ List.mem_cons_self a rest)
        · exact Or.inr (List.mem_cons_of_mem a h)
      · rintro (h | h)
        · exact Or.inl (Or.inl h)
        · rcases List.mem_cons.mp h with h | h
          · exact Or.inl (Or.inr h)
          · exact Or.inr h

theorem ensure_versionless_spec (pkgs cur : List Str) (present : Bool)
    (ic uc : Str) (rc : Bool) (hp : ¬ pkgs = []) :
    ensure_versionless_packages pkgs cur present ic uc rc =
      ⟨(if present
        then (pkgs.foldl setAdd []).filter (fun p => ¬ p ∈ cur)
        else (pkgs.foldl setAdd []).filter (fun p => p ∈ cur)),
        (if present
         then (pkgs.foldl setAdd []).filter (fun p => p ∈ cur)
         else (pkgs.foldl setAdd []).filter (fun p => ¬ p ∈ cur)),
        issue_commands (if present then ic else uc)
          ((if present
            then (pkgs.foldl setAdd []).filter (fun p => ¬ p ∈ cur)
            else (pkgs.foldl setAdd []).filter (fun p => p ∈ cur)).map
            shlex_quote) rc,
        (if present
         then ((pkgs.foldl setAdd []).filter (fun p => ¬ p ∈ cur)).foldl
            setAdd cur
         else cur.filter
            (fun p => ¬ p ∈ (pkgs.foldl setAdd []).filter (fun q => q ∈ cur)))⟩ := by
  cases present with
  | true => simp only [ensure_versionless_packages, if_neg hp, if_true]
  | false => simp only [ensure_versionless_packages, if_neg hp,
      Bool.false_eq_true, if_false]

theorem versionless_idem (pkgs cur : List Str) (present : Bool)
    (ic uc : Str) (rc : Bool) :
    (ensure_versionless_packages pkgs
        (ensure_versionless_packages pkgs cur present ic uc rc).current
        present ic uc rc).toChange = [] ∧
    (ensure_versionless_packages pkgs
        (ensure_versionless_packages pkgs cur present ic uc rc).current
        present ic uc rc).commands = [] := by
  by_cases hp : pkgs = []
  · subst hp
    simp [ensure_versionless_packages]
  · cases present with
    | true =>
        rw [ensure_versionless_spec pkgs cur true ic uc rc hp]
        simp only [if_true]
        have hnil : (pkgs.foldl setAdd []).filter
            (fun p => ¬ p ∈ ((pkgs.foldl setAdd []).filter
              (fun q => ¬ q ∈ cur)).foldl setAdd cur) = [] := by
          apply List.filter_eq_nil_iff.mpr
          intro p hp2
          simp only [decide_eq_true_eq, not_not, decide_not, Bool.not_eq_true',
            decide_eq_false_iff_not, Decidable.not_not]
          rw [mem_foldl_setAdd]
          by_cases hc : p ∈ cur
          · exact Or.inl hc
          · exact Or.inr (List.mem_filter.mpr ⟨hp2, by simpa using hc⟩)
        rw [ensure_versionless_spec pkgs _ true ic uc rc hp]
        simp only [if_true, hnil, List.map_nil, issue_commands_nil]
        exact ⟨trivial, trivial⟩
    | false =>
        rw [ensure_versionless_spec pkgs cur false ic uc rc hp]
        simp only [Bool.false_eq_true, if_false]
        have hnil : (pkgs.foldl setAdd []).filter
            (fun p => p ∈ cur.filter
              (fun q => ¬ q ∈ (pkgs.foldl setAdd []).filter (fun w => w ∈ cur))) =
            [] := by
          apply List.filter_eq_nil_iff.mpr
          intro p hp2
          simp only [List.mem_filter, decide_eq_true_eq, decide_not,
            Bool.not_eq_true', decide_eq_false_iff_not]
          rintro ⟨hc, hnc⟩
          exact hnc ⟨hp2, hc⟩
        rw [ensure_versionless_spec pkgs _ false ic uc rc hp]
        simp only [Bool.false_eq_true, if_false, hnil, List.map_nil,
          issue_commands_nil]
        exact ⟨trivial, trivial⟩

/-! ## Rightmost-split lemmas for `parse_package_version` -/

theorem isPre_iff (p : Str) : ∀ s : Str, isPre p s = true ↔ ∃ t, s = p ++ t := by
  induction p with
  | nil => intro s; simp [isPre]
  | cons a as ih =>
      intro s
      cases s with
      | nil =>
          simp only [isPre]
          constructor
          · intro h; cases h
          · rintro ⟨t, ht⟩; cases ht
      | cons b bs =>
          simp only [isPre, Bool.and_eq_true, decide_eq_true_eq, ih bs]
          constructor
          · rintro ⟨hab, t, ht⟩
            exact ⟨t, by rw [hab, ht]; rfl⟩
          · rintro ⟨t, ht⟩
            rw [List.cons_append] at ht
            injection ht with h1 h2
            exact ⟨h1.symm, t, h2⟩

theorem occAt_decomp (s sep : Str) (i : Nat) (h : occAt s sep i = true) :
    s = s.take i ++ sep ++ s.drop (i + sep.length) := by
  unfold occAt at h
  obtain ⟨t, ht⟩ := (isPre_iff sep (s.drop i)).mp h
  have htake : s = s.take i ++ s.drop i := (List.take_append_drop i s).symm
  have ht2 : s.drop (i + sep.length) = t := by
    have hdd : (s.drop i).drop sep.length = t := by
      rw [ht, List.drop_left]
    rw [← hdd, List.drop_drop, Nat.add_comm]
  rw [ht2, List.append_assoc, ← ht]
  exact htake

theorem occAt_ge_length (s sep : Str) (i : Nat) (hsep : ¬ sep = [])
    (h : s.length ≤ i) : occAt s sep i = false := by
  unfold occAt
  rw [List.drop_eq_nil_of_le h]
  cases sep with
  | nil => exact absurd rfl hsep
  | cons a as => rfl

theorem rfindAux_none (s sep : Str) :
    ∀ m : Nat, rfindAux s sep m = none → ∀ j, j ≤ m → occAt s sep j = false := by
  intro m
  induction m with
  | zero =>
      intro h j hj
      interval_cases j
      by_cases h0 : occAt s sep 0 = true
      · simp [rfindAux, h0] at h
      · simpa using h0
  | succ m ih =>
      intro h j hj
      by_cases h0 : occAt s sep (m + 1) = true
      · simp [rfindAux, h0] at h
      · have h0' : occAt s sep (m + 1) = false := by simpa using h0
        simp only [rfindAux, h0', Bool.false_eq_true, if_false] at h
        rcases Nat.lt_or_ge j (m + 1) with hlt | hge
        · exact ih h j (Nat.lt_succ_iff.mp hlt)
        · have hje : j = m + 1 := Nat.le_antisymm hj hge
          rw [hje]
          exact h0'

theorem rfindAux_some (s sep : Str) :
    ∀ m i : Nat, rfindAux s sep m = some i →
      i ≤ m ∧ occAt s sep i = true ∧
        ∀ j, i < j → j ≤ m → occAt s sep j = false := by
  intro m
  induction m with
  | zero =>
      intro i h
      by_cases h0 : occAt s sep 0 = true
      · simp only [rfindAux, h0, if_true, Option.some.injEq] at h
        subst h
        exact ⟨Nat.le_refl 0, h0, fun j hj1 hj2 => absurd (Nat.lt_of_lt_of_le hj1 hj2) (Nat.lt_irrefl 0)⟩
      · simp [rfindAux, h0] at h
  | succ m ih =>
      intro i h
      by_cases h0 : occAt s sep (m + 1) = true
      · simp only [rfindAux, h0, if_true, Option.some.injEq] at h
        subst h
        refine ⟨Nat.le_refl _, h0, fun j hj1 hj2 => ?_⟩
        exact absurd (Nat.lt_of_lt_of_le hj1 hj2) (Nat.lt_irrefl _)
      · simp only [rfindAux, h0, Bool.false_eq_true, if_false] at h
        obtain ⟨hle, hocc, hmax⟩ := ih i h
        refine ⟨Nat.le_succ_of_le hle, hocc, fun j hj1 hj2 => ?_⟩
        rcases Nat.lt_or_ge j (m + 1) with hlt | hge
        · exact hmax j hj1 (Nat.lt_succ_iff.mp hlt)
        · have : j = m + 1 := Nat.le_antisymm hj2 hge
          rw [this]
          simpa using h0

theorem occursIn_iff (s sep : Str) (hsep : ¬ sep = []) :
    occursIn s sep = true ↔ ∃ i, occAt s sep i = true := by
  unfold occursIn
  rw [List.any_eq_true]
  constructor
  · rintro ⟨i, _, hi⟩
    exact ⟨i, hi⟩
  · rintro ⟨i, hi⟩
    refine ⟨i, List.mem_range.mpr ?_, hi⟩
    by_contra hge
    push_neg at hge
    have := occAt_ge_length s sep i hsep (by omega)
    rw [this] at hi
    cases hi

/-! ## State-restoration lemmas (present/absent symmetry) -/

theorem applyUpgrades_fresh (pairs : List (Str × Str)) :
    ∀ cur : Dict, (pairs.map Prod.fst).Nodup →
      (∀ n ∈ pairs.map Prod.fst, ¬ n ∈ cur.map Prod.fst) →
      applyUpgrades cur pairs = cur ++ pairs := by
  induction pairs with
  | nil => intro cur _ _; simp [applyUpgrades]
  | cons p rest ih =>
      intro cur hnd hdisj
      obtain ⟨n, v⟩ := p
      simp only [List.map_cons, List.nodup_cons] at hnd
      have hn : ¬ n ∈ cur.map Prod.fst := hdisj n (by simp)
      unfold applyUpgrades at *
      rw [List.foldl_cons]
      simp only
      rw [dinsert_fresh cur n v hn]
      rw [ih (cur ++ [(n, v)]) hnd.2]
      · rw [List.append_assoc]
        rfl
      · intro m hm
        simp only [List.map_append, List.mem_append, List.map_cons,
          List.map_nil, List.mem_singleton]
        push_neg
        refine ⟨fun hmc => hdisj m (by simp [hm]) hmc, ?_⟩
        intro hmn
        exact hnd.1 (hmn ▸ hm)

theorem popAll_append (pairs : List (Str × Str)) :
    ∀ cur : Dict, (pairs.map Prod.fst).Nodup →
      (∀ n ∈ pairs.map Prod.fst, ¬ n ∈ cur.map Prod.fst) →
      applyDiffSingle false (cur ++ pairs) pairs = some cur := by
  induction pairs with
  | nil => intro cur _ _; simp [applyDiffSingle]
  | cons p rest ih =>
      intro cur hnd hdisj
      obtain ⟨n, v⟩ := p
      simp only [List.map_cons, List.nodup_cons] at hnd
      have hn : ¬ n ∈ cur.map Prod.fst := hdisj n (by simp)
      have hpop : dpop (cur ++ (n, v) :: rest) n = some (cur ++ rest) := by
        rw [dpop_append_left cur ((n, v) :: rest) n hn]
        simp [dpop]
      simp only [applyDiffSingle, Bool.false_eq_true, if_false, hpop]
      exact ih cur hnd.2 (fun m hm => hdisj m (by simp [hm]))

theorem single_restore (pkgs : List Str) (cur : Dict) (utl : Bool)
    (ic uc gc latest svj cvj : Str) (rc : Bool)
    (hdisj : ∀ n ∈ (parseLoop pkgs svj latest).1.map Prod.fst,
      alookup cur n = none) :
    Option.map SingleResult.current
      ((ensure_single_packages pkgs cur true utl ic uc gc latest svj cvj
          rc).bind
        (fun r1 => ensure_single_packages pkgs r1.current false utl ic uc gc
          latest svj cvj rc)) = some cur := by
  by_cases hp : pkgs = []
  · subst hp
    simp [ensure_single_packages]
  · have hkeysD : ((parseLoop pkgs svj latest).1.map Prod.fst).Nodup :=
      parseLoop_wf pkgs svj latest
    have hallchg : ∀ it ∈ (parseLoop pkgs svj latest).1,
        classifyItem cur true utl latest (parseLoop pkgs svj latest).2 it.1 =
          Bucket.change := fun it hit =>
      (classifyItem_eq_change_iff cur true utl latest
        (parseLoop pkgs svj latest).2 it.1).mpr
        (hdisj it.1 (List.mem_map_of_mem Prod.fst hit))
    have hchg : bucketFilter cur true utl latest (parseLoop pkgs svj latest).2
        Bucket.change (parseLoop pkgs svj latest).1 =
        (parseLoop pkgs svj latest).1.map
          (fun it => (it.1, (parseLoop pkgs svj latest).2)) :=
      bucketFilter_eq_all _ _ _ _ _ _ _ hallchg
    have hupg : bucketFilter cur true utl latest (parseLoop pkgs svj latest).2
        Bucket.upgrade (parseLoop pkgs svj latest).1 = [] := by
      apply bucketFilter_eq_nil
      intro it hit
      rw [hallchg it hit]
      simp
    have hkeysC : ((parseLoop pkgs svj latest).1.map
        (fun it => (it.1, (parseLoop pkgs svj latest).2))).map Prod.fst =
        (parseLoop pkgs svj latest).1.map Prod.fst := by
      rw [List.map_map]
      rfl
    have hfresh : applyUpgrades cur
        ((parseLoop pkgs svj latest).1.map
          (fun it => (it.1, (parseLoop pkgs svj latest).2))) =
        cur ++ (parseLoop pkgs svj latest).1.map
          (fun it => (it.1, (parseLoop pkgs svj latest).2)) := by
      apply applyUpgrades_fresh
      · rw [hkeysC]; exact hkeysD
      · rw [hkeysC]
        intro n hn
        rw [← alookup_eq_none]
        exact hdisj n hn
    rw [ensure_single_spec_true pkgs cur utl ic uc gc latest svj cvj rc hp]
    rw [hchg, hupg]
    simp only [Option.bind_some, Option.some_bind]
    have hcc : applyUpgrades
        (applyUpgrades cur
          ((parseLoop pkgs svj latest).1.map
            (fun it => (it.1, (parseLoop pkgs svj latest).2)))) [] =
        cur ++ (parseLoop pkgs svj latest).1.map
          (fun it => (it.1, (parseLoop pkgs svj latest).2)) := by
      rw [applyUpgrades_nil]
      exact hfresh
    rw [hcc]
    have hlook1 : ∀ it ∈ (parseLoop pkgs svj latest).1,
        alookup (cur ++ (parseLoop pkgs svj latest).1.map
          (fun it => (it.1, (parseLoop pkgs svj latest).2))) it.1 =
          some (parseLoop pkgs svj latest).2 := by
      intro it hit
      rw [← hfresh]
      rw [alookup_applyUpgrades _ (parseLoop pkgs svj latest).2
        (fun q hq => by
          obtain ⟨it2, _, hq2⟩ := List.mem_map.mp hq
          rw [← hq2])]
      rw [hkeysC]
      simp [List.mem_map_of_mem Prod.fst hit]
    have hallnoop : ∀ it ∈ (parseLoop pkgs svj latest).1,
        classifyItem (cur ++ (parseLoop pkgs svj latest).1.map
          (fun it => (it.1, (parseLoop pkgs svj latest).2)))
          false utl latest (parseLoop pkgs svj latest).2 it.1 = Bucket.noop :=
      fun it hit => classifyItem_some_pv _ _ _ _ _ _ (hlook1 it hit)
    have hnoop2 : bucketFilter (cur ++ (parseLoop pkgs svj latest).1.map
        (fun it => (it.1, (parseLoop pkgs svj latest).2)))
        false utl latest (parseLoop pkgs svj latest).2 Bucket.noop
        (parseLoop pkgs svj latest).1 =
        (parseLoop pkgs svj latest).1.map
          (fun it => (it.1, (parseLoop pkgs svj latest).2)) :=
      bucketFilter_eq_all _ _ _ _ _ _ _ hallnoop
    have hupg2 : bucketFilter (cur ++ (parseLoop pkgs svj latest).1.map
        (fun it => (it.1, (parseLoop pkgs svj latest).2)))
        false utl latest (parseLoop pkgs svj latest).2 Bucket.upgrade
        (parseLoop pkgs svj latest).1 = [] := by
      apply bucketFilter_eq_nil
      intro it _
      exact classifyItem_false_ne_upgrade _ _ _ _ _
    have hpops : applyDiffSingle false
        (cur ++ (parseLoop pkgs svj latest).1.map
          (fun it => (it.1, (parseLoop pkgs svj latest).2)))
        (bucketFilter (cur ++ (parseLoop pkgs svj latest).1.map
          (fun it => (it.1, (parseLoop pkgs svj latest).2)))
          false utl latest (parseLoop pkgs svj latest).2 Bucket.noop
          (parseLoop pkgs svj latest).1) = some cur := by
      rw [hnoop2]
      apply popAll_append
      · rw [hkeysC]; exact hkeysD
      · rw [hkeysC]
        intro n hn
        rw [← alookup_eq_none]
        exact hdisj n hn
    rw [ensure_single_spec_false pkgs _ utl ic uc gc latest svj cvj rc hp cur
      hpops]
    rw [hupg2]
    simp [applyUpgrades_nil]

theorem setAdd_nodup (s : List Str) (x : Str) (h : s.Nodup) :
    (setAdd s x).Nodup := by
  unfold setAdd
  by_cases hx : x ∈ s
  · simpa [hx] using h
  · simp only [hx, if_false]
    rw [List.nodup_append]
    exact ⟨h, List.nodup_singleton x, by simpa using hx⟩

theorem foldl_setAdd_nodup (l : List Str) :
    ∀ s : List Str, s.Nodup → (l.foldl setAdd s).Nodup := by
  induction l with
  | nil => intro s h; exact h
  | cons a rest ih =>
      intro s h
      rw [List.foldl_cons]
      exact ih _ (setAdd_nodup s a h)

theorem foldl_setAdd_fresh (l : List Str) :
    ∀ s : List Str, l.Nodup → (∀ x ∈ l, ¬ x ∈ s) →
      l.foldl setAdd s = s ++ l := by
  induction l with
  | nil => intro s _ _; simp
  | cons a rest ih =>
      intro s hnd hdisj
      rw [List.foldl_cons]
      have ha : setAdd s a = s ++ [a] := by
        unfold setAdd
        rw [if_neg (hdisj a (List.mem_cons_self a rest))]
      rw [ha]
      rw [List.nodup_cons] at hnd
      rw [ih (s ++ [a]) hnd.2]
      · rw [List.append_assoc]
        rfl
      · intro x hx
        simp only [List.mem_append, List.mem_singleton]
        push_neg
        refine ⟨fun hxs => hdisj x (List.mem_cons_of_mem a hx) hxs, ?_⟩
        intro hxa
        exact hnd.1 (hxa ▸ hx)

theorem versionless_restore (pkgs cur : List Str) (ic uc : Str) (rc : Bool)
    (hdisj : ∀ p ∈ pkgs, ¬ p ∈ cur) :
    (ensure_versionless_packages pkgs
        (ensure_versionless_packages pkgs cur true ic uc rc).current
        false ic uc rc).current = cur := by
  by_cases hp : pkgs = []
  · subst hp
    simp [ensure_versionless_packages]
  · have hdisj2 : ∀ p ∈ pkgs.foldl setAdd [], ¬ p ∈ cur := by
      intro p hpm
      have := (mem_foldl_setAdd pkgs [] p).mp hpm
      rcases this with h | h
      · cases h
      · exact hdisj p h
    have hnd : (pkgs.foldl setAdd []).Nodup :=
      foldl_setAdd_nodup pkgs [] (List.nodup_nil)
    have hdiff : (pkgs.foldl setAdd []).filter (fun p => ¬ p ∈ cur) =
        pkgs.foldl setAdd [] := by
      apply List.filter_eq_self.mpr
      intro p hpm
      simpa using hdisj2 p hpm
    have hfold : ((pkgs.foldl setAdd []).filter (fun p => ¬ p ∈ cur)).foldl
        setAdd cur = cur ++ pkgs.foldl setAdd [] := by
      rw [hdiff]
      exact foldl_setAdd_fresh _ cur hnd hdisj2
    rw [ensure_versionless_spec pkgs cur true ic uc rc hp]
    simp only [if_true]
    rw [hfold]
    rw [ensure_versionless_spec pkgs _ false ic uc rc hp]
    simp only [Bool.false_eq_true, if_false]
    have hnoop2 : (pkgs.foldl setAdd []).filter
        (fun q => q ∈ cur ++ pkgs.foldl setAdd []) = pkgs.foldl setAdd [] := by
      apply List.filter_eq_self.mpr
      intro p hpm
      simp [List.mem_append, hpm]
    rw [hnoop2]
    rw [List.filter_append]
    have hc1 : cur.filter (fun p => ¬ p ∈ pkgs.foldl setAdd []) = cur := by
      apply List.filter_eq_self.mpr
      intro p hpc
      simp only [decide_not, Bool.not_eq_true', decide_eq_false_iff_not]
      intro hpm
      exact hdisj2 p hpm hpc
    have hc2 : (pkgs.foldl setAdd []).filter
        (fun p => ¬ p ∈ pkgs.foldl setAdd []) = [] := by
      apply List.filter_eq_nil_iff.mpr
      intro p hpm
      simpa using hpm
    rw [hc1, hc2, List.append_nil]

/-! ## Support lemmas for the multi-version characterization and ipset -/

theorem msetAdd_keys (d : List (Str × List Str)) (n v : Str) :
    (msetAdd d n v).map Prod.fst =
      if n ∈ d.map Prod.fst then d.map Prod.fst else d.map Prod.fst ++ [n] := by
  induction d with
  | nil => simp [msetAdd]
  | cons p rest ih =>
      obtain ⟨k0, vs⟩ := p
      by_cases h : k0 = n
      · subst h; simp [msetAdd]
      · have h' : ¬ n = k0 := fun hh => h hh.symm
        by_cases h2 : n ∈ rest.map Prod.fst <;>
          simp [msetAdd, h, h', h2, ih]

theorem buildDesiredMulti_wf (pkgs : List Str) (svj latest : Str) :
    ((buildDesiredMulti pkgs svj latest).map Prod.fst).Nodup := by
  unfold buildDesiredMulti
  have h : ∀ (l : List Str) (acc : List (Str × List Str)),
      (acc.map Prod.fst).Nodup →
      ((l.foldl
        (fun d pkg =>
          let nv := parse_package_version pkg svj latest
          msetAdd d nv.1 nv.2) acc).map Prod.fst).Nodup := by
    intro l
    induction l with
    | nil => intro acc h; exact h
    | cons pkg rest ih =>
        intro acc h
        rw [List.foldl_cons]
        apply ih
        rw [msetAdd_keys]
        by_cases hk : (parse_package_version pkg svj latest).1 ∈ acc.map Prod.fst
        · simpa [hk] using h
        · simp only [hk, if_false]
          rw [List.nodup_append]
          exact ⟨h, List.nodup_singleton _, by simpa using hk⟩
  exact h pkgs [] (by simp)

theorem mem_entry_iff_mGet (d : List (Str × List Str))
    (hwf : (d.map Prod.fst).Nodup) (n v : Str) :
    (∃ it ∈ d, it.1 = n ∧ v ∈ it.2) ↔ v ∈ mGet d n := by
  induction d with
  | nil => simp [mGet, alookup]
  | cons p rest ih =>
      obtain ⟨k0, vs⟩ := p
      simp only [List.map_cons, List.nodup_cons] at hwf
      by_cases h : k0 = n
      · subst h
        have hm : mGet ((k0, vs) :: rest) k0 = vs := by simp [mGet, alookup]
        rw [hm]
        constructor
        · rintro ⟨it, hit, hn, hv⟩
          rcases List.mem_cons.mp hit with he | hr
          · subst he; exact hv
          · exact absurd (hn ▸ List.mem_map_of_mem Prod.fst hr) hwf.1
        · intro hv
          exact ⟨(k0, vs), List.mem_cons_self _ _, rfl, hv⟩
      · have hm : mGet ((k0, vs) :: rest) n = mGet rest n := by
          simp [mGet, alookup, h]
        rw [hm, ← ih hwf.2]
        constructor
        · rintro ⟨it, hit, hn, hv⟩
          rcases List.mem_cons.mp hit with he | hr
          · rw [he] at hn
            exact absurd hn h
          · exact ⟨it, hr, hn, hv⟩
        · rintro ⟨it, hit, hn, hv⟩
          exact ⟨it, List.mem_cons_of_mem _ hit, hn, hv⟩

theorem eqAttrsLoop_iff (lhs rhs : EntryRecord) (attrs : List Str) :
    eqAttrsLoop lhs rhs attrs = true ↔
      ∀ a ∈ attrs, normAttr lhs a = normAttr rhs a := by
  induction attrs with
  | nil => simp [eqAttrsLoop]
  | cons a rest ih =>
      by_cases h : normAttr lhs a = normAttr rhs a
      · simp [eqAttrsLoop, h, ih]
      · simp [eqAttrsLoop, h]

/-! ## Claim theorems -/

/-- C1: the claim states that each desired package is classified and
bucketed with its own parsed desired version.  The code instead reuses the
stale loop variable `package_version` from the parsing loop: with desired
list `["a=1", "b=2"]` and empty current state, the toChange bucket pairs
BOTH names with version "2" (the last-parsed version), so `("a", "1")` is
not in the bucket as the claim requires.  This evaluates the embedded
`ensure_single_packages` at that failing input. -/
theorem c1_stale_version_bug :
    Option.map SingleResult.toChange
      (ensure_single_packages ["a=1".data, "b=2".data] [] true false
        "I".data "U".data "G".data "latest".data "=".data "=".data true) =
      some [("a".data, "2".data), ("b".data, "2".data)] ∧
    ¬ ("a".data, "1".data) ∈ [(("a".data : Str), ("2".data : Str)),
      ("b".data, "2".data)] := by
  decide

/-- C2: idempotence of all three reconciliation variants: a second call
with the same arguments against the snapshot mutated by the first call
classifies everything as noop and emits zero commands.  The single-version
hypothesis `DictWF cur` states that the current-state dict has unique keys,
which is always true of a Python dict. -/
theorem c2_reconciliation_idempotent :
    (∀ (pkgs : List Str) (cur : Dict) (present utl : Bool)
        (ic uc gc latest svj cvj : Str) (rc : Bool) (r1 r2 : SingleResult),
      DictWF cur →
      ensure_single_packages pkgs cur present utl ic uc gc latest svj cvj rc =
        some r1 →
      ensure_single_packages pkgs r1.current present utl ic uc gc latest svj
        cvj rc = some r2 →
      r2.toChange = [] ∧ r2.toUpgrade = [] ∧ r2.commands = []) ∧
    (∀ (pkgs : List Str) (cur : List (Str × List Str)) (present : Bool)
        (ic uc latest svj cvj : Str) (rc : Bool),
      (ensure_multi_packages pkgs
          (ensure_multi_packages pkgs cur present ic uc latest svj cvj
            rc).current present ic uc latest svj cvj rc).toChange = [] ∧
      (ensure_multi_packages pkgs
          (ensure_multi_packages pkgs cur present ic uc latest svj cvj
            rc).current present ic uc latest svj cvj rc).commands = []) ∧
    (∀ (pkgs cur : List Str) (present : Bool) (ic uc : Str) (rc : Bool),
      (ensure_versionless_packages pkgs
          (ensure_versionless_packages pkgs cur present ic uc rc).current
          present ic uc rc).toChange = [] ∧
      (ensure_versionless_packages pkgs
          (ensure_versionless_packages pkgs cur present ic uc rc).current
          present ic uc rc).commands = []) :=
  ⟨single_idem, multi_idem, versionless_idem⟩

/-- Witness for C2 at a concrete input: installing `a` into an empty
current state and reconciling again yields empty buckets and no
commands. -/
theorem c2_witness :
    DictWF ([] : Dict) ∧
    ((⟨[], [], [("a".data, "latest".data)], [],
        [("a".data, "latest".data)]⟩ : SingleResult).toChange = [] ∧
      (⟨[], [], [("a".data, "latest".data)], [],
        [("a".data, "latest".data)]⟩ : SingleResult).toUpgrade = [] ∧
      (⟨[], [], [("a".data, "latest".data)], [],
        [("a".data, "latest".data)]⟩ : SingleResult).commands = []) :=
  ⟨by simp [DictWF],
    c2_reconciliation_idempotent.1 ["a".data] [] true false "I".data "U".data
      "G".data "latest".data "=".data "=".data true
      ⟨[("a".data, "latest".data)], [], [], ["I a=latest".data],
        [("a".data, "latest".data)]⟩
      ⟨[], [], [("a".data, "latest".data)], [], [("a".data, "latest".data)]⟩
      (by simp [DictWF]) (by decide) (by decide)⟩

/-- C3 counterexample: with desired `["a"]` already present as version "1",
reconciling present=true (noop, latest gate) and then present=false (which
uninstalls the pre-existing package) ends with an empty snapshot, not the
initial `{"a": "1"}`. -/
theorem c3_counterexample :
    Option.map SingleResult.current
      ((ensure_single_packages ["a".data] [("a".data, "1".data)] true false
          "I".data "U".data "G".data "latest".data "=".data "=".data
          true).bind
        (fun r1 => ensure_single_packages ["a".data] r1.current false false
          "I".data "U".data "G".data "latest".data "=".data "=".data true)) =
      some [] ∧
    ¬ ([] : Dict) = [("a".data, "1".data)] := by
  decide

/-- C3 amended: present/absent symmetry holds in the order present=true
then present=false provided no desired package name is present in the
initial snapshot, for the single-version and versionless variants. -/
theorem c3_present_absent_symmetry_disjoint :
    (∀ (pkgs : List Str) (cur : Dict) (utl : Bool)
        (ic uc gc latest svj cvj : Str) (rc : Bool),
      (∀ n ∈ (parseLoop pkgs svj latest).1.map Prod.fst,
        alookup cur n = none) →
      Option.map SingleResult.current
        ((ensure_single_packages pkgs cur true utl ic uc gc latest svj cvj
            rc).bind
          (fun r1 => ensure_single_packages pkgs r1.current false utl ic uc gc
            latest svj cvj rc)) = some cur) ∧
    (∀ (pkgs cur : List Str) (ic uc : Str) (rc : Bool),
      (∀ p ∈ pkgs, ¬ p ∈ cur) →
      (ensure_versionless_packages pkgs
          (ensure_versionless_packages pkgs cur true ic uc rc).current
          false ic uc rc).current = cur) :=
  ⟨single_restore, versionless_restore⟩

/-- Witness for the amended C3: installing `a` over the disjoint snapshot
`{"b": "1"}` and then removing it restores the snapshot exactly. -/
theorem c3_witness :
    (∀ n ∈ (parseLoop ["a".data] "=".data "latest".data).1.map Prod.fst,
      alookup ([("b".data, "1".data)] : Dict) n = none) ∧
    Option.map SingleResult.current
      ((ensure_single_packages ["a".data] [("b".data, "1".data)] true false
          "I".data "U".data "G".data "latest".data "=".data "=".data
          true).bind
        (fun r1 => ensure_single_packages ["a".data] r1.current false false
          "I".data "U".data "G".data "latest".data "=".data "=".data true)) =
      some [("b".data, "1".data)] :=
  ⟨by decide,
    c3_present_absent_symmetry_disjoint.1 ["a".data] [("b".data, "1".data)]
      false "I".data "U".data "G".data "latest".data "=".data "=".data true
      (by decide)⟩

/-- C4: in `ensure_multi_packages` with present=true, the toChange bucket
is exactly the per-name set difference desired − current, the noop bucket
exactly the intersection, and the mutated current state contains a version
iff it was installed by this call or was already present — so no version
already present is ever removed. -/
theorem c4_multi_diff_overlap_monotone :
    ∀ (pkgs : List Str) (cur : List (Str × List Str))
      (ic uc latest svj cvj : Str) (rc : Bool) (n v : Str),
      ((n, v) ∈ (ensure_multi_packages pkgs cur true ic uc latest svj cvj
          rc).toChange ↔
        v ∈ mGet (buildDesiredMulti pkgs svj latest) n ∧ ¬ v ∈ mGet cur n) ∧
      ((n, v) ∈ (ensure_multi_packages pkgs cur true ic uc latest svj cvj
          rc).noop ↔
        v ∈ mGet (buildDesiredMulti pkgs svj latest) n ∧ v ∈ mGet cur n) ∧
      (v ∈ mGet (ensure_multi_packages pkgs cur true ic uc latest svj cvj
          rc).current n ↔
        (n, v) ∈ (ensure_multi_packages pkgs cur true ic uc latest svj cvj
          rc).toChange ∨ v ∈ mGet cur n) := by
  intro pkgs cur ic uc latest svj cvj rc n v
  have hwf := buildDesiredMulti_wf pkgs svj latest
  by_cases hp : pkgs = []
  · subst hp
    simp [ensure_multi_packages, buildDesiredMulti, mGet, alookup]
  · rw [ensure_multi_spec pkgs cur true ic uc latest svj cvj rc hp]
    simp only [if_true]
    refine ⟨?_, ?_, ?_⟩
    · rw [mem_multiDiff]
      constructor
      · rintro ⟨it, hit, hn, hv, hnv⟩
        exact ⟨(mem_entry_iff_mGet _ hwf n v).mp ⟨it, hit, hn, hv⟩, hnv⟩
      · rintro ⟨hd, hnv⟩
        obtain ⟨it, hit, hn, hv⟩ := (mem_entry_iff_mGet _ hwf n v).mpr hd
        exact ⟨it, hit, hn, hv, hnv⟩
    · rw [mem_multiNoop]
      constructor
      · rintro ⟨it, hit, hn, hv, hcv⟩
        exact ⟨(mem_entry_iff_mGet _ hwf n v).mp ⟨it, hit, hn, hv⟩, hcv⟩
      · rintro ⟨hd, hcv⟩
        obtain ⟨it, hit, hn, hv⟩ := (mem_entry_iff_mGet _ hwf n v).mpr hd
        exact ⟨it, hit, hn, hv, hcv⟩
    · exact mem_addAll _ cur n v

/-- C5 counterexample: in literal-separator mode the combined
`name + sep + version` string IS passed to `shlex.quote` as a whole, and
the result differs from composing the individually escaped name and
version, refuting the claim that the combined string is never escaped as a
whole. -/
theorem c5_counterexample :
    quote_package_spec [("a b".data, "1 2".data)] "=".data =
      [shlex_quote "a b=1 2".data] ∧
    ¬ shlex_quote "a b=1 2".data =
      shlex_quote "a b".data ++ "=".data ++ shlex_quote "1 2".data := by
  decide

/-- C5 amended: with a non-empty version, in space-join mode the name and
version are each individually shell-escaped (the combined string is never
escaped as a whole there); in literal-separator mode the combined
name+separator+version string is shell-quoted as a single unit. -/
theorem c5_quoting_modes :
    ∀ (n v cvj : Str), ¬ v = [] →
      (cvj = [' '] →
        quote_package_spec [(n, v)] cvj =
          [shlex_quote n ++ [' '] ++ shlex_quote v]) ∧
      (¬ cvj = [' '] →
        quote_package_spec [(n, v)] cvj = [shlex_quote (n ++ cvj ++ v)]) := by
  intro n v cvj hv
  constructor
  · intro hc
    subst hc
    simp [quote_package_spec, hv]
  · intro hc
    simp [quote_package_spec, hv, hc]

/-- Witness for the amended C5 at `("a", "1")` in space mode. -/
theorem c5_witness :
    ¬ ("1".data : Str) = [] ∧
    ((" ".data = ([' '] : Str) →
      quote_package_spec [("a".data, "1".data)] " ".data =
        [shlex_quote "a".data ++ [' '] ++ shlex_quote "1".data]) ∧
      (¬ " ".data = ([' '] : Str) →
        quote_package_spec [("a".data, "1".data)] " ".data =
          [shlex_quote ("a".data ++ " ".data ++ "1".data)])) :=
  ⟨by decide, c5_quoting_modes "a".data "1".data " ".data (by decide)⟩

/-- C6: the per-mode contract of the spec quoter: empty version gives the
quoted name alone; a single-space join gives two separately quoted tokens
joined by one space; any other join quotes the combined
name+separator+version string. -/
theorem c6_spec_quoter_contract :
    ∀ (n v cvj : Str),
      (v = [] → quote_package_spec [(n, v)] cvj = [shlex_quote n]) ∧
      (¬ v = [] → cvj = [' '] →
        quote_package_spec [(n, v)] cvj =
          [shlex_quote n ++ [' '] ++ shlex_quote v]) ∧
      (¬ v = [] → ¬ cvj = [' '] →
        quote_package_spec [(n, v)] cvj = [shlex_quote (n ++ cvj ++ v)]) := by
  intro n v cvj
  refine ⟨?_, ?_, ?_⟩
  · intro hv
    subst hv
    simp [quote_package_spec]
  · intro hv hc
    subst hc
    simp [quote_package_spec, hv]
  · intro hv hc
    simp [quote_package_spec, hv, hc]

/-- Witness for C6 at `("pkg", "")`: the output is the quoted name with no
trailing separator. -/
theorem c6_witness :
    ("".data : Str) = [] ∧
    quote_package_spec [("pkg".data, "".data)] "=".data =
      [shlex_quote "pkg".data] :=
  ⟨by decide,
    (c6_spec_quoter_contract "pkg".data "".data "=".data).1 (by decide)⟩

/-- C7: `parse_package_version` performs at most one split, at the
rightmost occurrence of the (non-empty) join string: with no occurrence
the result is the whole token plus the caller-supplied latest placeholder;
otherwise the token decomposes as name ++ join ++ version with no further
occurrence starting beyond the split point. -/
theorem c7_parse_rightmost_split :
    ∀ (package version_join latest : Str), ¬ version_join = [] →
      (occursIn package version_join = false →
        parse_package_version package version_join latest =
          (package, latest)) ∧
      (occursIn package version_join = true →
        package =
          (parse_package_version package version_join latest).1 ++
            version_join ++
            (parse_package_version package version_join latest).2 ∧
        ∀ j, (parse_package_version package version_join latest).1.length < j →
          occAt package version_join j = false) := by
  intro package version_join latest hsep
  cases h : rfindAux package version_join package.length with
  | none =>
      have hall : ∀ j, occAt package version_join j = false := by
        intro j
        rcases le_or_lt j package.length with hle | hgt
        · exact rfindAux_none package version_join package.length h j hle
        · exact occAt_ge_length package version_join j hsep (Nat.le_of_lt hgt)
      constructor
      · intro _
        simp only [parse_package_version, rfindIdx, h]
      · intro htrue
        obtain ⟨i, hi⟩ := (occursIn_iff package version_join hsep).mp htrue
        rw [hall i] at hi
        cases hi
  | some i =>
      obtain ⟨hle, hocc, hmax⟩ :=
        rfindAux_some package version_join package.length i h
      constructor
      · intro hfalse
        have htrue : occursIn package version_join = true :=
          (occursIn_iff package version_join hsep).mpr ⟨i, hocc⟩
        rw [htrue] at hfalse
        cases hfalse
      · intro _
        have hparse : parse_package_version package version_join latest =
            (package.take i, package.drop (i + version_join.length)) := by
          simp only [parse_package_version, rfindIdx, h]
        rw [hparse]
        have hlen : (package.take i).length = i := by
          rw [List.length_take]
          exact Nat.min_eq_left hle
        refine ⟨occAt_decomp package version_join i hocc, ?_⟩
        intro j hj
        rw [hlen] at hj
        rcases le_or_lt j package.length with hjle | hjgt
        · exact hmax j hj hjle
        · exact occAt_ge_length package version_join j hsep (Nat.le_of_lt hjgt)

/-- Witness for C7 at `"a=b=c"` with join `"="`: the split is at the
rightmost `=`. -/
theorem c7_witness :
    ¬ ("=".data : Str) = [] ∧
    ((occursIn "a=b=c".data "=".data = false →
      parse_package_version "a=b=c".data "=".data "latest".data =
        ("a=b=c".data, "latest".data)) ∧
      (occursIn "a=b=c".data "=".data = true →
        "a=b=c".data =
          (parse_package_version "a=b=c".data "=".data "latest".data).1 ++
            "=".data ++
            (parse_package_version "a=b=c".data "=".data "latest".data).2 ∧
        ∀ j,
          (parse_package_version "a=b=c".data "=".data
            "latest".data).1.length < j →
          occAt "a=b=c".data "=".data j = false)) :=
  ⟨by decide,
    c7_parse_rightmost_split "a=b=c".data "=".data "latest".data (by decide)⟩

/-- C8: `_issue_commands` emits nothing for an empty spec list; in rollup
mode exactly one command consisting of the verb and all specs space-joined
in order; otherwise one command per spec, preserving input order. -/
theorem c8_command_emission :
    ∀ (verb : Str) (specs : List Str) (rollup : Bool),
      (specs = [] → issue_commands verb specs rollup = []) ∧
      (¬ specs = [] → rollup = true →
        issue_commands verb specs rollup =
          [verb ++ [' '] ++ joinSpace specs]) ∧
      (¬ specs = [] → rollup = false →
        issue_commands verb specs rollup =
          specs.map (fun spec => verb ++ [' '] ++ spec)) := by
  intro verb specs rollup
  refine ⟨?_, ?_, ?_⟩
  · intro h
    simp [issue_commands, h]
  · intro h hr
    simp [issue_commands, h, hr]
  · intro h hr
    simp [issue_commands, h, hr]

/-- Witness for C8 in rollup mode with two specs. -/
theorem c8_witness :
    ¬ (["a".data, "b".data] : List Str) = [] ∧
    issue_commands "i".data ["a".data, "b".data] true =
      ["i".data ++ [' '] ++ joinSpace ["a".data, "b".data]] :=
  ⟨by decide,
    (c8_command_emission "i".data ["a".data, "b".data] true).2.1 (by decide)
      rfl⟩

/-- C9: `equivalent_entries` returns true iff the three compared fields
(setname, entry, extras) agree after normalizing a missing or `None` value
to the empty string. -/
theorem c9_equivalent_entries_iff :
    ∀ lhs rhs : EntryRecord,
      equivalent_entries lhs rhs = true ↔
        ∀ a ∈ comparedAttrs, normAttr lhs a = normAttr rhs a :=
  fun lhs rhs => eqAttrsLoop_iff lhs rhs comparedAttrs

/-- C10: with present=false, `ensure_single_packages` always succeeds and
every name in the post-swap toChange bucket (the uninstall list) is a key
of the initial current mapping, so `current_packages.pop(package_name)`
can never raise `KeyError`. -/
theorem c10_absent_pop_safe :
    ∀ (pkgs : List Str) (cur : Dict) (utl : Bool)
      (ic uc gc latest svj cvj : Str) (rc : Bool),
      ∃ r, ensure_single_packages pkgs cur false utl ic uc gc latest svj cvj
          rc = some r ∧
        ∀ p ∈ r.toChange, (alookup cur p.1).isSome = true := by
  intro pkgs cur utl ic uc gc latest svj cvj rc
  by_cases hp : pkgs = []
  · subst hp
    refine ⟨⟨[], [], [], [], cur⟩, by simp [ensure_single_packages], ?_⟩
    intro p hpm
    cases hpm
  · have hdwf : DictWF (parseLoop pkgs svj latest).1 := parseLoop_wf pkgs svj latest
    have hnd : ((bucketFilter cur false utl latest (parseLoop pkgs svj latest).2
        Bucket.noop (parseLoop pkgs svj latest).1).map Prod.fst).Nodup :=
      List.Nodup.sublist
        (keys_bucketFilter_sublist cur false utl latest
          (parseLoop pkgs svj latest).2 Bucket.noop (parseLoop pkgs svj latest).1)
        hdwf
    have hsome : ∀ n ∈ (bucketFilter cur false utl latest
        (parseLoop pkgs svj latest).2 Bucket.noop
        (parseLoop pkgs svj latest).1).map Prod.fst,
        (alookup cur n).isSome = true := by
      intro n hn
      have hcl := ((mem_keys_bucketFilter cur false utl latest
        (parseLoop pkgs svj latest).2 Bucket.noop
        (parseLoop pkgs svj latest).1 n).mp hn).2
      rw [Option.isSome_iff_ne_none]
      intro hnone
      have hch := (classifyItem_eq_change_iff cur false utl latest
        (parseLoop pkgs svj latest).2 n).mpr hnone
      rw [hcl] at hch
      cases hch
    have hiss := applyDiffSingle_false_isSome _ cur hnd hsome
    obtain ⟨curA, hA⟩ := Option.isSome_iff_exists.mp hiss
    refine ⟨_, ensure_single_spec_false pkgs cur utl ic uc gc latest svj cvj rc
      hp curA hA, ?_⟩
    intro p hpm
    simp only at hpm
    obtain ⟨it, hit, hpq, hcl⟩ := (mem_bucketFilter cur false utl latest
      (parseLoop pkgs svj latest).2 Bucket.noop
      (parseLoop pkgs svj latest).1 p).mp hpm
    subst hpq
    rw [Option.isSome_iff_ne_none]
    intro hnone
    have hch := (classifyItem_eq_change_iff cur false utl latest
      (parseLoop pkgs svj latest).2 it.1).mpr hnone
    rw [hcl] at hch
    cases hch

/-- Witness for C10 at a concrete absent-mode call. -/
theorem c10_witness :
    ∃ r, ensure_single_packages ["a".data] [("a".data, "1".data)] false false
        "I".data "U".data "G".data "latest".data "=".data "=".data true =
        some r ∧
      ∀ p ∈ r.toChange,
        (alookup ([("a".data, "1".data)] : Dict) p.1).isSome = true :=
  c10_absent_pop_safe ["a".data] [("a".data, "1".data)] false "I".data
    "U".data "G".data "latest".data "=".data "=".data true
